import Mathlib

/-!
# alsa-audio/main.c : sine generator and asynchronous refill loop

A shallow embedding of `src/alsa-audio/main.c`.

* `double` values are elements of an arbitrary floor ring `K` that is a
  linearly ordered field (`ℚ` for evaluation, `ℝ` for the exact-real reading).
  The constant `2. * M_PI` and the library function `sin` come from `<math.h>`;
  they are the fields `max_phase` and `sin` of `Config`.
* The globals `freq`, `rate` and `snd_pcm_format_width(format)` are the other
  fields of `Config`; `channels` is the length of the list of areas.
* Integers (`int`, `snd_pcm_sframes_t`, `snd_pcm_uframes_t`, pointers) are
  `Int` and `Nat`; sizes and addresses are taken to be in the range of their
  C types. Where the width matters the conversion is explicit: the
  `unsigned int maxval` is reduced modulo `2 ^ 32`, and in the two transfer
  loops the result of `snd_pcm_writei` is narrowed to `int err`,
  `period_size` is narrowed to the `int count` of `generate_sine` and
  converted to the `snd_pcm_uframes_t` size of `snd_pcm_writei`.
* Memory is a map from byte addresses to byte values, together with the list
  of the addresses stored to (most recent first).
* The ALSA library and the allocator are an arbitrary device: a state and a
  function that answers every call with a return value, an output value and
  a new state. The program records every call with its reply, and every
  `printf` by its line number.
* `exit(EXIT_FAILURE)` is the result `none` of `generate_sine` and the
  outcome `Outcome.exited` of the functions that talk to the device.
-/

namespace AlsaAudio

/-! ## Data model -/

/-- One `snd_pcm_channel_area_t`: base address (in bytes), offset of the first
sample in bits, distance between samples in bits. -/
structure Area where
  addr : Nat
  first : Nat
  step : Nat
deriving DecidableEq

/-- Byte-addressed memory with the record of the addresses written,
most recent store first. -/
structure Mem where
  bytes : Nat → Nat
  log : List Nat

/-- The file-level configuration read by `generate_sine` (`freq`, `rate`,
`snd_pcm_format_width(format)`) and the two `<math.h>` items it uses. -/
structure Config (K : Type) where
  freq : K
  rate : Nat
  format_bits : Nat
  max_phase : K
  sin : K → K

variable {K : Type} [LinearOrderedField K] [FloorRing K]

/-! ## generate_sine -/

/-- Store of one byte: `*(p) = v`. -/
def Mem.store (m : Mem) (a v : Nat) : Mem :=
  ⟨fun x => if x = a then v else m.bytes x, a :: m.log⟩

/-- Conversion of a `double` to `int` in an assignment: the fractional part is
discarded (C11 6.3.1.4), i.e. truncation toward zero. -/
def truncToInt (x : K) : Int :=
  if 0 ≤ x then ⌊x⌋ else ⌈x⌉

/-- The value `unsigned int maxval = (1 << (format_bits - 1)) - 1`, for a
width of at least one bit. -/
def maxval (format_bits : Nat) : Nat :=
  ((1 <<< (format_bits - 1)) - 1) % 2 ^ 32

/-- The value `int bps = format_bits / 8`. -/
def bps (format_bits : Nat) : Nat :=
  format_bits / 8

/-- The value `double step = max_phase*freq/(double)rate`. -/
def phaseStep (cfg : Config K) : K :=
  cfg.max_phase * cfg.freq / (cfg.rate : K)

/-- The value `(res >> i * 8) & 0xff`, with `>>` the arithmetic shift. -/
def byteOf (res : Int) (i : Nat) : Nat :=
  ((res >>> (i * 8)) % 256).toNat

/-- The value `res = sin(phase) * maxval` of one frame. -/
def sampleValue (cfg : Config K) (phase : K) : Int :=
  truncToInt (cfg.sin phase * (maxval cfg.format_bits : K))

/-- The update `phase += step; if (phase >= max_phase) phase -= max_phase;`. -/
def advance (cfg : Config K) (phase : K) : K :=
  if phase + phaseStep cfg ≥ cfg.max_phase then phase + phaseStep cfg - cfg.max_phase
  else phase + phaseStep cfg

/-- The first loop of `generate_sine`: verify every area and compute the pair
`(samples[chn], steps[chn])`; `none` is `exit(EXIT_FAILURE)`. -/
def prepareAreas (offset : Nat) : List Area → Option (List (Nat × Nat))
  | [] => some []
  | a :: rest =>
    if a.first % 8 ≠ 0 then none
    else if a.step % 16 ≠ 0 then none
    else
      match prepareAreas offset rest with
      | none => none
      | some chans =>
        some ((a.addr + a.first / 8 + offset * (a.step / 8), a.step / 8) :: chans)

/-- The loop `for(int i = 0; i < bps; i++) *(samples[chn] + i) = (res >> i * 8) & 0xff;`. -/
def storeSample (res : Int) (nbytes ptr : Nat) (m : Mem) : Mem :=
  (List.range nbytes).foldl (fun acc i => acc.store (ptr + i) (byteOf res i)) m

/-- The loop over the channels inside one frame: store the sample at
`samples[chn]`, then `samples[chn] += steps[chn]`. -/
def channelLoop (res : Int) (nbytes : Nat) : List (Nat × Nat) → Mem → Mem × List (Nat × Nat)
  | [], m => (m, [])
  | c :: rest, m =>
    let r := channelLoop res nbytes rest (storeSample res nbytes c.1 m)
    (r.1, (c.1 + c.2, c.2) :: r.2)

/-- The loop `while(count-- > 0)` of `generate_sine`, with the number of
iterations as a natural number. -/
def fillLoop (cfg : Config K) : Nat → List (Nat × Nat) → K → Mem → Mem × K
  | 0, _, phase, m => (m, phase)
  | n + 1, chans, phase, m =>
    let r := channelLoop (sampleValue cfg phase) (bps cfg.format_bits) chans m
    fillLoop cfg n r.2 (advance cfg phase) r.1

/-- The function `generate_sine(areas, offset, count, &phase)`: the new memory
and the new `*_phase`, or `none` when it exits. The array `areas` has `channels`
entries. A negative `count` runs the fill loop zero times. -/
def generate_sine (cfg : Config K) (areas : List Area) (offset : Nat) (count : Int)
    (phase : K) (m : Mem) : Option (Mem × K) :=
  match prepareAreas offset areas with
  | none => none
  | some chans => some (fillLoop cfg count.toNat chans phase m)

/-! ## The layout built by main -/

/-- The channel areas of `main`: `areas[chn].addr = samples` (address `base`),
`first = chn * W`, `step = channels * W`, with `W` the value of
`snd_pcm_format_physical_width(format)`. -/
def mainAreas (base channels W : Nat) : List Area :=
  (List.range channels).map (fun chn => ⟨base, chn * W, channels * W⟩)

/-- A rational configuration for evaluation: 16-bit samples, 220 Hz at 44100 Hz,
`max_phase = 6` and a bounded odd function in place of the sine. -/
def demoConfig : Config ℚ :=
  ⟨220, 44100, 16, 6, fun x => 2 * x / (1 + x * x)⟩

/-- Memory filled with zero bytes and an empty record of stores. -/
def zeroMem : Mem := ⟨fun _ => 0, []⟩

variable {σ : Type}

/-! ## Auxiliary definitions for the statements about generate_sine -/

/-- Channel pointers moved forward by `a` frames. -/
def shiftChans (a : Nat) (chans : List (Nat × Nat)) : List (Nat × Nat) :=
  chans.map (fun c => (c.1 + a * c.2, c.2))

/-- Channel pointers of an interleaved buffer: channel `j` at `B + j * Wb`,
all with byte step `N * Wb`. -/
def interleavedChans (B N Wb : Nat) : List (Nat × Nat) :=
  (List.range N).map (fun j => (B + j * Wb, N * Wb))

/-- Byte address of the sample of frame `frame` in area `a`:
`addr + first / 8 + frame * (step / 8)`. -/
def sampleAddr (a : Area) (frame : Nat) : Nat :=
  a.addr + a.first / 8 + frame * (a.step / 8)

/-- Value of a list of bytes read least significant byte first. -/
def decodeLE : List Nat → Nat
  | [] => 0
  | b :: rest => b + 256 * decodeLE rest

/-- Two's-complement reading of an unsigned `bits`-bit value. -/
def toSigned (bits u : Nat) : Int :=
  if u < 2 ^ (bits - 1) then (u : Int) else (u : Int) - 2 ^ bits

/-- Read back the `bits / 8` bytes at `ptr`, least significant byte first, and
decode them as a two's-complement signed integer of `bits` bits. -/
def readSample (m : Mem) (ptr bits : Nat) : Int :=
  toSigned bits (decodeLE ((List.range (bits / 8)).map (fun i => m.bytes (ptr + i))))

/-- The value `x mod M` for `M > 0`: `x - M * ⌊x / M⌋`. -/
def fmod (x M : K) : K :=
  x - M * (⌊x / M⌋ : K)

/-- A sequence of calls `generate_sine(areas, offset, count, &phase)`, given as
the list of `(offset, count)`, each call started from the phase the previous
one returned. -/
def runCalls (cfg : Config K) (areas : List Area) :
    List (Nat × Int) → K → Mem → Option (Mem × K)
  | [], p, m => some (m, p)
  | c :: rest, p, m =>
    (generate_sine cfg areas c.1 c.2 p m).bind (fun r => runCalls cfg areas rest r.2 r.1)

/-- Cumulative frame count of a sequence of calls. -/
def totalFrames (calls : List (Nat × Int)) : Nat :=
  (calls.map (fun c => c.2.toNat)).sum

/-! ## The device and the functions that talk to it -/

/-- Calls into the ALSA library and the allocator, with the arguments the
program chooses. -/
inductive Call
  | snd_output_stdio_attach
  | snd_pcm_open
  | snd_pcm_status
  | snd_pcm_hw_params_any
  | snd_pcm_hw_params_set_access
  | snd_pcm_hw_params_set_format
  | snd_pcm_hw_params_set_channels (channels : Nat)
  | snd_pcm_hw_params_set_rate_near (rate : Nat)
  | snd_pcm_hw_params_set_buffer_time_near (time : Nat)
  | snd_pcm_hw_params_get_buffer_size
  | snd_pcm_hw_params_set_period_time_near (time : Nat)
  | snd_pcm_hw_params_get_period_size
  | snd_pcm_hw_params
  | snd_pcm_sw_params_current
  | snd_pcm_sw_params_set_start_threshold (frames : Int)
  | snd_pcm_sw_params_set_avail_min (frames : Int)
  | snd_pcm_sw_params_set_period_event
  | snd_pcm_sw_params
  | malloc (size : Int)
  | calloc (count : Nat)
  | snd_pcm_prepare
  | snd_pcm_dump
  | snd_async_add_pcm_handler
  | snd_pcm_avail_update
  | snd_pcm_writei (frames : Int)
  | snd_pcm_state
  | snd_pcm_start
deriving DecidableEq

/-- What a call gives back: the returned value and the value left in the
output argument (`rrate`, `size`) or the address returned by the allocator. -/
structure Reply where
  ret : Int
  out : Nat
deriving DecidableEq

/-- An observable action of the program: a call with its reply, or a `printf`,
identified by its line in `main.c`. -/
inductive Event
  | call (c : Call) (rep : Reply)
  | printf (line : Nat)
deriving DecidableEq

/-- An arbitrary device: a state and, for each call, a reply and a new state. -/
abbrev Device (σ : Type) := σ → Call → Reply × σ

/-- Values taken from the system headers `<errno.h>` and `<alsa/asoundlib.h>`. -/
structure Platform where
  EPIPE : Int
  EINVAL : Int
  SND_PCM_STATE_PREPARED : Int

/-- The remaining file-level settings: `channels`, `buffer_time`, `period_time`
and the value of `snd_pcm_format_physical_width(format)`. -/
structure Setup where
  channels : Nat
  buffer_time : Nat
  period_time : Nat
  physical_width : Nat

/-- How a function that may not return ends: it returned, it called
`exit(EXIT_FAILURE)`, it reached the endless `sleep` loop of `transfer_loop`,
or the model ran out of fuel inside a loop that was still running. -/
inductive Outcome
  | returned
  | exited
  | parked
  | running
deriving DecidableEq

/-- The state of the process: the device, the events so far (most recent
first), the sample buffer, `data.phase` and the globals `buffer_size` and
`period_size`. -/
structure Sys (σ K : Type) where
  dev : σ
  trace : List Event
  mem : Mem
  phase : K
  buffer_size : Int
  period_size : Int

/-- Perform one call on the device and record it. -/
def Sys.call (d : Device σ) (s : Sys σ K) (c : Call) : Reply × Sys σ K :=
  ((d s.dev c).1,
    ⟨(d s.dev c).2, Event.call c (d s.dev c).1 :: s.trace, s.mem, s.phase, s.buffer_size,
      s.period_size⟩)

/-- Record the `printf` at the given line. -/
def Sys.print (s : Sys σ K) (line : Nat) : Sys σ K :=
  ⟨s.dev, Event.printf line :: s.trace, s.mem, s.phase, s.buffer_size, s.period_size⟩

/-- Store the result of `generate_sine`: the buffer and `data.phase`. -/
def Sys.setData (s : Sys σ K) (g : Mem × K) : Sys σ K :=
  ⟨s.dev, s.trace, g.1, g.2, s.buffer_size, s.period_size⟩

/-- The assignment `buffer_size = size`. -/
def Sys.setBufferSize (s : Sys σ K) (size : Nat) : Sys σ K :=
  ⟨s.dev, s.trace, s.mem, s.phase, (size : Int), s.period_size⟩

/-- The assignment `period_size = size`. -/
def Sys.setPeriodSize (s : Sys σ K) (size : Nat) : Sys σ K :=
  ⟨s.dev, s.trace, s.mem, s.phase, s.buffer_size, (size : Int)⟩

/-- Conversion to `int` (32 bits, two's complement), as in the assignment of
the result of `snd_pcm_writei` to `int err` and in passing `period_size` as
the `int count` of `generate_sine`. -/
def toInt32 (x : Int) : Int :=
  (x + 2 ^ 31) % 2 ^ 32 - 2 ^ 31

/-- Conversion to `snd_pcm_uframes_t` (`unsigned long`, 64 bits), as in passing
`period_size` as the `size` of `snd_pcm_writei`. -/
def toUInt64 (x : Int) : Int :=
  x % 2 ^ 64

/-- The line of the `printf` that `generate_sine` reaches when it exits: 37 for
a misaligned `first`, 42 for a rejected `step`, at the first area that fails
(0 when no area fails, in which case `generate_sine` does not exit). -/
def abortLine : List Area → Nat
  | [] => 0
  | a :: rest =>
    if a.first % 8 ≠ 0 then 37 else if a.step % 16 ≠ 0 then 42 else abortLine rest

/-- The loop `while(avail >= period_size)` of `transfer_callback`; `fuel`
bounds the number of iterations of the model. The result of `snd_pcm_writei`
is narrowed to `int err` before it is tested. -/
def refillLoop (d : Device σ) (cfg : Config K) (areas : List Area) :
    Nat → Int → Sys σ K → Outcome × Sys σ K
  | 0, avail, s =>
    if avail ≥ s.period_size then (Outcome.running, s) else (Outcome.returned, s)
  | fuel + 1, avail, s =>
    if avail ≥ s.period_size then
      match generate_sine cfg areas 0 (toInt32 s.period_size) s.phase s.mem with
      | none => (Outcome.exited, s.print (abortLine areas))
      | some g =>
        let w := (s.setData g).call d (Call.snd_pcm_writei (toUInt64 s.period_size))
        if toInt32 w.1.ret < 0 then (Outcome.exited, w.2.print 88)
        else if toInt32 w.1.ret ≠ s.period_size then (Outcome.exited, w.2.print 92)
        else
          let a := w.2.call d Call.snd_pcm_avail_update
          refillLoop d cfg areas fuel a.1.ret a.2
    else (Outcome.returned, s)

/-- The function `transfer_callback`. -/
def transfer_callback (d : Device σ) (cfg : Config K) (pf : Platform) (areas : List Area)
    (fuel : Nat) (s : Sys σ K) : Outcome × Sys σ K :=
  let a := s.call d Call.snd_pcm_avail_update
  if a.1.ret < 0 then
    if a.1.ret = -pf.EPIPE then (Outcome.returned, a.2.print 80)
    else refillLoop d cfg areas fuel a.1.ret a.2
  else refillLoop d cfg areas fuel a.1.ret a.2

/-- The loop `for(int count = 0; count < 2; count++)` of `transfer_loop`, with
the number of iterations left; `Outcome.returned` means the loop finished.
The result of `snd_pcm_writei` is narrowed to `int err` before it is tested. -/
def primeLoop (d : Device σ) (cfg : Config K) (areas : List Area) :
    Nat → Sys σ K → Outcome × Sys σ K
  | 0, s => (Outcome.returned, s)
  | n + 1, s =>
    match generate_sine cfg areas 0 (toInt32 s.period_size) s.phase s.mem with
    | none => (Outcome.exited, s.print (abortLine areas))
    | some g =>
      let w := (s.setData g).call d (Call.snd_pcm_writei (toUInt64 s.period_size))
      if toInt32 w.1.ret < 0 then (Outcome.exited, w.2.print 117)
      else if toInt32 w.1.ret ≠ s.period_size then (Outcome.exited, w.2.print 121)
      else primeLoop d cfg areas n w.2

/-- The function `transfer_loop`, up to the endless `sleep` loop. -/
def transfer_loop (d : Device σ) (cfg : Config K) (pf : Platform) (areas : List Area)
    (s : Sys σ K) : Outcome × Sys σ K :=
  let h := (s.setData (s.mem, 0)).call d Call.snd_async_add_pcm_handler
  if h.1.ret < 0 then (Outcome.exited, h.2.print 110)
  else
    let pr := primeLoop d cfg areas 2 h.2
    match pr.1 with
    | Outcome.returned =>
      let st := pr.2.call d Call.snd_pcm_state
      if st.1.ret = pf.SND_PCM_STATE_PREPARED then
        let r := st.2.call d Call.snd_pcm_start
        if r.1.ret < 0 then (Outcome.exited, r.2.print 127) else (Outcome.parked, r.2)
      else (Outcome.parked, st.2)
    | o => (o, pr.2)

/-- The function `set_hwparams`: the returned `int` and the new state. -/
def set_hwparams (d : Device σ) (cfg : Config K) (pf : Platform) (su : Setup)
    (s : Sys σ K) : Int × Sys σ K :=
  let r1 := s.call d Call.snd_pcm_hw_params_any
  if r1.1.ret < 0 then (r1.1.ret, r1.2.print 153)
  else
    let r2 := r1.2.call d Call.snd_pcm_hw_params_set_access
    if r2.1.ret < 0 then (r2.1.ret, r2.2.print 158)
    else
      let r3 := r2.2.call d Call.snd_pcm_hw_params_set_format
      if r3.1.ret < 0 then (r3.1.ret, r3.2.print 163)
      else
        let r4 := r3.2.call d (Call.snd_pcm_hw_params_set_channels su.channels)
        if r4.1.ret < 0 then (r4.1.ret, r4.2.print 168)
        else
          let r5 := r4.2.call d (Call.snd_pcm_hw_params_set_rate_near cfg.rate)
          if r5.1.ret < 0 then (r5.1.ret, r5.2.print 174)
          else if r5.1.out ≠ cfg.rate then (-pf.EINVAL, r5.2.print 178)
          else
            let r6 := r5.2.call d (Call.snd_pcm_hw_params_set_buffer_time_near su.buffer_time)
            if r6.1.ret < 0 then (r6.1.ret, r6.2.print 183)
            else
              let r7 := r6.2.call d Call.snd_pcm_hw_params_get_buffer_size
              if r7.1.ret < 0 then (r7.1.ret, r7.2.print 187)
              else
                let r8 := (r7.2.setBufferSize r7.1.out).call d
                  (Call.snd_pcm_hw_params_set_period_time_near su.period_time)
                if r8.1.ret < 0 then (r8.1.ret, r8.2.print 193)
                else
                  let r9 := r8.2.call d Call.snd_pcm_hw_params_get_period_size
                  if r9.1.ret < 0 then (r9.1.ret, r9.2.print 197)
                  else
                    let r10 := (r9.2.setPeriodSize r9.1.out).call d Call.snd_pcm_hw_params
                    if r10.1.ret < 0 then (r10.1.ret, r10.2.print 203)
                    else (0, r10.2)

/-- The function `set_swparams`. -/
def set_swparams (d : Device σ) (s : Sys σ K) : Int × Sys σ K :=
  let r1 := s.call d Call.snd_pcm_sw_params_current
  if r1.1.ret < 0 then (r1.1.ret, r1.2.print 212)
  else
    let r2 := r1.2.call d
      (Call.snd_pcm_sw_params_set_start_threshold (s.buffer_size - s.period_size))
    if r2.1.ret < 0 then (r2.1.ret, r2.2.print 218)
    else
      let r3 := r2.2.call d (Call.snd_pcm_sw_params_set_avail_min s.period_size)
      if r3.1.ret < 0 then (r3.1.ret, r3.2.print 222)
      else
        let r4 := r3.2.call d Call.snd_pcm_sw_params_set_period_event
        if r4.1.ret < 0 then (r4.1.ret, r4.2.print 226)
        else
          let r5 := r4.2.call d Call.snd_pcm_sw_params
          if r5.1.ret < 0 then (r5.1.ret, r5.2.print 231)
          else (0, r5.2)

/-- The size passed to `malloc` in `main`:
`(period_size * channels * snd_pcm_format_physical_width(format)) / 8`. -/
def mainBufferSize (period_size : Int) (channels W : Nat) : Int :=
  Int.tdiv (period_size * (channels : Int) * (W : Int)) 8

/-- The function `main`, up to the endless `sleep` loop of `transfer_loop`. -/
def main (d : Device σ) (cfg : Config K) (pf : Platform) (su : Setup) (s : Sys σ K) :
    Outcome × Sys σ K :=
  let r1 := s.call d Call.snd_output_stdio_attach
  if r1.1.ret < 0 then (Outcome.exited, r1.2.print 244)
  else
    let r2 := r1.2.call d Call.snd_pcm_open
    if r2.1.ret < 0 then (Outcome.exited, r2.2.print 249)
    else
      let r3 := r2.2.call d Call.snd_pcm_status
      if r3.1.ret < 0 then (Outcome.exited, r3.2.print 255)
      else
        let hw := set_hwparams d cfg pf su r3.2
        if hw.1 < 0 then (Outcome.exited, hw.2.print 263)
        else
          let sw := set_swparams d hw.2
          if sw.1 < 0 then (Outcome.exited, sw.2.print 267)
          else
            let m1 := sw.2.call d
              (Call.malloc (mainBufferSize sw.2.period_size su.channels su.physical_width))
            if m1.1.out = 0 then (Outcome.exited, m1.2.print 273)
            else
              let m2 := m1.2.call d (Call.calloc su.channels)
              if m2.1.out = 0 then (Outcome.exited, m2.2.print 280)
              else
                let p1 := m2.2.call d Call.snd_pcm_prepare
                if p1.1.ret < 0 then (Outcome.exited, p1.2.print 290)
                else
                  let p2 := p1.2.call d Call.snd_pcm_dump
                  if p2.1.ret < 0 then (Outcome.exited, p2.2.print 294)
                  else
                    transfer_loop d cfg pf
                      (mainAreas m1.1.out su.channels su.physical_width) p2.2

/-! ## Reading the record of events -/

/-- For a `snd_pcm_writei` event: the frame count requested and the result. -/
def Event.writeReq : Event → Option (Int × Int)
  | Event.call (Call.snd_pcm_writei n) r => some (n, r.ret)
  | _ => none

/-- For a `snd_pcm_avail_update` event: the value returned. -/
def Event.availReply : Event → Option Int
  | Event.call Call.snd_pcm_avail_update r => some r.ret
  | _ => none

/-- The transfers attempted, most recent first: frames requested and result. -/
def writes (tr : List Event) : List (Int × Int) :=
  tr.filterMap Event.writeReq

/-- Frames the device reports as written, summed over the transfers. -/
def framesTransferred (tr : List Event) : Int :=
  ((writes tr).map (fun w => max w.2 0)).sum

/-- Every transfer in the record directly follows an availability query that
returned at least `P` (the record is most recent first). -/
def writesGuarded (P : Int) : List Event → Bool
  | [] => true
  | e :: older =>
    (match e.writeReq with
      | some _ =>
        (match older.head?.bind Event.availReply with
          | some a => decide (P ≤ a)
          | none => false)
      | none => true) && writesGuarded P older

/-- The events older than the most recent `snd_pcm_start` call. -/
def beforeStart : List Event → List Event
  | [] => []
  | Event.call Call.snd_pcm_start _ :: older => older
  | _ :: older => beforeStart older

/-- The call is `snd_pcm_hw_params_set_rate_near`. -/
def Call.isRateNear : Call → Bool
  | Call.snd_pcm_hw_params_set_rate_near _ => true
  | _ => false

/-- Replies to the `snd_pcm_hw_params_set_rate_near` calls in the record. -/
def rateReplies : List Event → List Reply
  | [] => []
  | Event.call c r :: older => if c.isRateNear then r :: rateReplies older else rateReplies older
  | Event.printf _ :: older => rateReplies older

/-- A call that `set_hwparams` makes after the rate has been settled, or a
transfer of samples. -/
def Call.afterRate : Call → Bool
  | Call.snd_pcm_hw_params_set_buffer_time_near _ => true
  | Call.snd_pcm_hw_params_get_buffer_size => true
  | Call.snd_pcm_hw_params_set_period_time_near _ => true
  | Call.snd_pcm_hw_params_get_period_size => true
  | Call.snd_pcm_hw_params => true
  | Call.snd_pcm_writei _ => true
  | _ => false

/-- The calls of the record that come after the rate has been settled. -/
def callsAfterRate : List Event → List Call
  | [] => []
  | Event.call c _ :: older =>
    if c.afterRate then c :: callsAfterRate older else callsAfterRate older
  | Event.printf _ :: older => callsAfterRate older

/-- The values of `<errno.h>` and `<alsa/asoundlib.h>` on Linux. -/
def linuxPlatform : Platform := ⟨32, 22, 2⟩

/-- The settings of the file: 2 channels, 500000 us, 100000 us, 16 bits. -/
def fileSetup : Setup := ⟨2, 500000, 100000, 16⟩

/-- A device that accepts everything: rate as requested, 22050 and 4410 frames,
one period available, then none. The state counts the availability queries. -/
def goodDevice : Device Nat := fun n c =>
  match c with
  | Call.snd_pcm_hw_params_set_rate_near r => (⟨0, r⟩, n)
  | Call.snd_pcm_hw_params_get_buffer_size => (⟨0, 22050⟩, n)
  | Call.snd_pcm_hw_params_get_period_size => (⟨0, 4410⟩, n)
  | Call.malloc _ => (⟨0, 4096⟩, n)
  | Call.calloc _ => (⟨0, 8192⟩, n)
  | Call.snd_pcm_writei f => (⟨f, 0⟩, n)
  | Call.snd_pcm_state => (⟨2, 0⟩, n)
  | Call.snd_pcm_avail_update => (⟨if n = 0 then 5000 else 100, 0⟩, n + 1)
  | _ => (⟨0, 0⟩, n)

/-- A device that answers the rate request with 48000 Hz. -/
def otherRateDevice : Device Unit := fun _ c =>
  match c with
  | Call.snd_pcm_hw_params_set_rate_near _ => (⟨0, 48000⟩, ())
  | _ => (⟨0, 0⟩, ())

/-- A device like `goodDevice` whose `snd_pcm_writei` reports `2 ^ 32` frames
more than were requested. -/
def wideDevice : Device Nat := fun n c =>
  match c with
  | Call.snd_pcm_writei f => (⟨f + 2 ^ 32, 0⟩, n)
  | Call.snd_pcm_state => (⟨2, 0⟩, n)
  | Call.snd_pcm_avail_update => (⟨if n = 0 then 5000 else 100, 0⟩, n + 1)
  | _ => (⟨0, 0⟩, n)

/-- A device on which every call fails with -77 (`-EBADFD`). -/
def badStateDevice : Device Unit := fun _ _ => (⟨-77, 0⟩, ())

/-- A process state with an empty record, a zeroed buffer and the given
`period_size`. -/
def freshSys (dev : σ) (period_size : Int) : Sys σ ℚ :=
  ⟨dev, [], zeroMem, 0, 0, period_size⟩

/-- What the refill loop keeps true of the record of events. -/
def RefillOk (P : Int) (t : List Event) : Prop :=
  (∀ w ∈ writes t, w.1 = P) ∧ writesGuarded P t = true

/-! # Theorems -/

variable {F : Type}

/-! ## Pointer bookkeeping -/

theorem shiftChans_zero (chans : List (Nat × Nat)) : shiftChans 0 chans = chans := by
  induction chans with
  | nil => rfl
  | cons c rest ih =>
    simp only [shiftChans, List.map_cons] at ih ⊢
    rw [ih]; simp

theorem shiftChans_succ (a : Nat) (chans : List (Nat × Nat)) :
    shiftChans (a + 1) chans = shiftChans a (shiftChans 1 chans) := by
  induction chans with
  | nil => rfl
  | cons c rest ih =>
    simp only [shiftChans, List.map_cons] at ih ⊢
    rw [ih]
    congr 1
    ext <;> simp
    ring

theorem channelLoop_snd (res : Int) (n : Nat) (chans : List (Nat × Nat)) (m : Mem) :
    (channelLoop res n chans m).2 = shiftChans 1 chans := by
  induction chans generalizing m with
  | nil => rfl
  | cons c rest ih =>
    simp only [channelLoop, shiftChans, List.map_cons] at ih ⊢
    rw [ih]; simp

theorem prepareAreas_offset (o a : Nat) (areas : List Area) :
    prepareAreas (o + a) areas = (prepareAreas o areas).map (shiftChans a) := by
  induction areas with
  | nil => rfl
  | cons x rest ih =>
    simp only [prepareAreas]
    by_cases h1 : x.first % 8 ≠ 0
    · simp [h1]
    · by_cases h2 : x.step % 16 ≠ 0
      · simp [h1, h2]
      · rw [if_neg h1, if_neg h2, if_neg h1, if_neg h2, ih]
        cases prepareAreas o rest with
        | none => rfl
        | some chans =>
          simp only [Option.map_some', shiftChans, List.map_cons]
          congr 3
          ring

theorem fillLoop_add (cfg : Config K) (a b : Nat) (chans : List (Nat × Nat)) (p : K) (m : Mem) :
    fillLoop cfg (a + b) chans p m =
      fillLoop cfg b (shiftChans a chans) (fillLoop cfg a chans p m).2
        (fillLoop cfg a chans p m).1 := by
  induction a generalizing chans p m with
  | zero => simp [fillLoop, shiftChans_zero]
  | succ a ih =>
    rw [Nat.add_right_comm]
    simp only [fillLoop]
    rw [ih, channelLoop_snd, ← shiftChans_succ]

/-- Claim C1: splitting a run of `a + b` frames into a call for `a` frames at
offset `o` followed by a call for `b` frames at offset `o + a`, the second
started from the phase the first returned, gives the same memory (same bytes,
same stores) and the same returned phase as the single call; this includes
the case where the areas are rejected, in which both sides exit. -/
theorem generate_sine_chunking (cfg : Config K) (areas : List Area) (o : Nat) (a b : Int)
    (ha : 0 ≤ a) (hb : 0 ≤ b) (p : K) (m : Mem) :
    (generate_sine cfg areas o a p m).bind
        (fun r => generate_sine cfg areas (o + a.toNat) b r.2 r.1)
      = generate_sine cfg areas o (a + b) p m := by
  simp only [generate_sine]
  rw [prepareAreas_offset]
  cases prepareAreas o areas with
  | none => rfl
  | some chans =>
    simp only [Option.some_bind, Option.map_some']
    rw [Int.toNat_add ha hb, fillLoop_add]

/-! ## Effect of the stores -/

theorem storeSample_succ (res : Int) (n ptr : Nat) (m : Mem) :
    storeSample res (n + 1) ptr m = (storeSample res n ptr m).store (ptr + n) (byteOf res n) := by
  simp [storeSample, List.range_succ, List.foldl_append]

theorem storeSample_bytes (res : Int) (n ptr : Nat) (m : Mem) (a : Nat) :
    (storeSample res n ptr m).bytes a =
      if ptr ≤ a ∧ a < ptr + n then byteOf res (a - ptr) else m.bytes a := by
  induction n with
  | zero =>
    have h0 : ¬ (ptr ≤ a ∧ a < ptr + 0) := by omega
    rw [if_neg h0]
    rfl
  | succ n ih =>
    rw [storeSample_succ]
    simp only [Mem.store]
    by_cases h : a = ptr + n
    · subst h
      simp
    · rw [if_neg h, ih]
      by_cases h2 : ptr ≤ a ∧ a < ptr + n
      · have h3 : ptr ≤ a ∧ a < ptr + (n + 1) := ⟨h2.1, by omega⟩
        rw [if_pos h2, if_pos h3]
      · have h3 : ¬ (ptr ≤ a ∧ a < ptr + (n + 1)) := by omega
        rw [if_neg h2, if_neg h3]

theorem storeSample_log (res : Int) (n ptr : Nat) (m : Mem) (x : Nat)
    (hx : x ∈ (storeSample res n ptr m).log) :
    x ∈ m.log ∨ (ptr ≤ x ∧ x < ptr + n) := by
  induction n with
  | zero => left; simpa [storeSample] using hx
  | succ n ih =>
    rw [storeSample_succ] at hx
    simp only [Mem.store, List.mem_cons] at hx
    rcases hx with h | h
    · right; omega
    · rcases ih h with h1 | h1
      · left; exact h1
      · right; omega

theorem channelLoop_log (res : Int) (n : Nat) (chans : List (Nat × Nat)) (m : Mem) (x : Nat)
    (hx : x ∈ (channelLoop res n chans m).1.log) :
    x ∈ m.log ∨ ∃ c ∈ chans, c.1 ≤ x ∧ x < c.1 + n := by
  induction chans generalizing m with
  | nil => left; simpa [channelLoop] using hx
  | cons c rest ih =>
    simp only [channelLoop] at hx
    rcases ih _ hx with h | ⟨c1, hc1, h⟩
    · rcases storeSample_log res n c.1 m x h with h1 | h1
      · left; exact h1
      · right; exact ⟨c, List.mem_cons_self _ _, h1⟩
    · right; exact ⟨c1, List.mem_cons_of_mem _ hc1, h⟩

theorem channelLoop_bytes_unchanged (res : Int) (n : Nat) (chans : List (Nat × Nat)) (m : Mem)
    (a : Nat) (h : ∀ c ∈ chans, ¬ (c.1 ≤ a ∧ a < c.1 + n)) :
    (channelLoop res n chans m).1.bytes a = m.bytes a := by
  induction chans generalizing m with
  | nil => rfl
  | cons c rest ih =>
    simp only [channelLoop]
    rw [ih _ (fun c1 hc1 => h c1 (List.mem_cons_of_mem _ hc1)), storeSample_bytes,
      if_neg (h c (List.mem_cons_self _ _))]

theorem channelLoop_bytes_written (res : Int) (n : Nat) (chans : List (Nat × Nat)) (m : Mem)
    (a v : Nat) (hex : ∃ c ∈ chans, c.1 ≤ a ∧ a < c.1 + n)
    (hall : ∀ c ∈ chans, c.1 ≤ a → a < c.1 + n → byteOf res (a - c.1) = v) :
    (channelLoop res n chans m).1.bytes a = v := by
  induction chans generalizing m with
  | nil => simp at hex
  | cons c rest ih =>
    simp only [channelLoop]
    by_cases hr : ∃ c1 ∈ rest, c1.1 ≤ a ∧ a < c1.1 + n
    · exact ih _ hr (fun c1 hc1 => hall c1 (List.mem_cons_of_mem _ hc1))
    · have hc : c.1 ≤ a ∧ a < c.1 + n := by
        rcases hex with ⟨c1, hc1, h1⟩
        rcases List.mem_cons.1 hc1 with h2 | h2
        · rw [← h2]; exact h1
        · exact absurd ⟨c1, h2, h1⟩ hr
      rw [channelLoop_bytes_unchanged _ _ _ _ _ (fun c1 hc1 h1 => hr ⟨c1, hc1, h1⟩),
        storeSample_bytes, if_pos hc]
      exact hall c (List.mem_cons_self _ _) hc.1 hc.2

/-! ## The interleaved layout -/

theorem mem_interleavedChans (B N Wb : Nat) (c : Nat × Nat) :
    c ∈ interleavedChans B N Wb ↔ ∃ j, j < N ∧ c = (B + j * Wb, N * Wb) := by
  simp only [interleavedChans, List.mem_map, List.mem_range]
  constructor
  · rintro ⟨j, hj, h⟩; exact ⟨j, hj, h.symm⟩
  · rintro ⟨j, hj, h⟩; exact ⟨j, hj, h.symm⟩

theorem shiftChans_interleaved (a B N Wb : Nat) :
    shiftChans a (interleavedChans B N Wb) = interleavedChans (B + a * (N * Wb)) N Wb := by
  simp only [shiftChans, interleavedChans, List.map_map]
  apply List.map_congr_left
  intro j _
  simp only [Function.comp]
  congr 1
  ring

theorem slot_lt (N Wb j i : Nat) (hj : j < N) (hi : i < Wb) : j * Wb + i < N * Wb := by
  have h1 : (j + 1) * Wb ≤ N * Wb := Nat.mul_le_mul_right Wb hj
  have h2 : (j + 1) * Wb = j * Wb + Wb := by ring
  omega

theorem slot_unique (Wb j j1 i i1 : Nat) (hi : i < Wb) (hi1 : i1 < Wb)
    (h : j * Wb + i = j1 * Wb + i1) : j = j1 ∧ i = i1 := by
  have key : j = j1 := by
    rcases Nat.lt_trichotomy j j1 with h1 | h1 | h1
    · have h2 : (j + 1) * Wb ≤ j1 * Wb := Nat.mul_le_mul_right Wb h1
      have h3 : (j + 1) * Wb = j * Wb + Wb := by ring
      omega
    · exact h1
    · have h2 : (j1 + 1) * Wb ≤ j * Wb := Nat.mul_le_mul_right Wb h1
      have h3 : (j1 + 1) * Wb = j1 * Wb + Wb := by ring
      omega
  subst key
  exact ⟨rfl, by omega⟩

theorem frame_log (res : Int) (n B N Wb : Nat) (hn : n ≤ Wb) (m : Mem) (x : Nat)
    (hx : x ∈ (channelLoop res n (interleavedChans B N Wb) m).1.log) :
    x ∈ m.log ∨ (B ≤ x ∧ x < B + N * Wb) := by
  rcases channelLoop_log res n _ m x hx with h | ⟨c, hc, h1, h2⟩
  · left; exact h
  · right
    rcases (mem_interleavedChans B N Wb c).1 hc with ⟨j, hj, rfl⟩
    simp only at h1 h2
    have h3 := slot_lt N Wb j (x - (B + j * Wb)) hj (by omega)
    omega

theorem frame_bytes_unchanged (res : Int) (n B N Wb : Nat) (hn : n ≤ Wb) (m : Mem) (a : Nat)
    (ha : a < B ∨ B + N * Wb ≤ a) :
    (channelLoop res n (interleavedChans B N Wb) m).1.bytes a = m.bytes a := by
  apply channelLoop_bytes_unchanged
  intro c hc h
  rcases (mem_interleavedChans B N Wb c).1 hc with ⟨j, hj, rfl⟩
  simp only at h
  have h3 := slot_lt N Wb j (a - (B + j * Wb)) hj (by omega)
  omega

theorem frame_bytes_written (res : Int) (n B N Wb : Nat) (hn : n ≤ Wb) (m : Mem) (j i : Nat)
    (hj : j < N) (hi : i < n) :
    (channelLoop res n (interleavedChans B N Wb) m).1.bytes (B + j * Wb + i) = byteOf res i := by
  apply channelLoop_bytes_written
  · exact ⟨(B + j * Wb, N * Wb), (mem_interleavedChans B N Wb _).2 ⟨j, hj, rfl⟩, by simp, by
      simp only; omega⟩
  · intro c hc h1 h2
    rcases (mem_interleavedChans B N Wb c).1 hc with ⟨j1, _, rfl⟩
    simp only at h1 h2 ⊢
    have h3 := slot_unique Wb j j1 i (B + j * Wb + i - (B + j1 * Wb)) (by omega) (by omega)
      (by omega)
    rw [← h3.2]

/-! ## The fill loop on the interleaved layout -/

theorem fillLoop_phase (cfg : Config K) (n : Nat) (chans : List (Nat × Nat)) (p : K) (m : Mem) :
    (fillLoop cfg n chans p m).2 = (advance cfg)^[n] p := by
  induction n generalizing chans p m with
  | zero => rfl
  | succ n ih => simp only [fillLoop, Function.iterate_succ_apply]; rw [ih]

theorem fillLoop_log (cfg : Config K) (n B N Wb : Nat) (hn : bps cfg.format_bits ≤ Wb) (p : K)
    (m : Mem) (x : Nat) (hx : x ∈ (fillLoop cfg n (interleavedChans B N Wb) p m).1.log) :
    x ∈ m.log ∨ (B ≤ x ∧ x < B + n * (N * Wb)) := by
  induction n generalizing B p m with
  | zero => left; simpa [fillLoop] using hx
  | succ n ih =>
    simp only [fillLoop] at hx
    rw [channelLoop_snd, shiftChans_interleaved] at hx
    have h2 : (n + 1) * (N * Wb) = n * (N * Wb) + N * Wb := by ring
    rcases ih _ _ _ hx with h | h
    · rcases frame_log _ _ B N Wb hn m x h with h1 | h1
      · left; exact h1
      · right
        have : 0 ≤ n * (N * Wb) := Nat.zero_le _
        omega
    · right; omega

theorem fillLoop_bytes_unchanged (cfg : Config K) (n B N Wb : Nat)
    (hn : bps cfg.format_bits ≤ Wb) (p : K) (m : Mem) (a : Nat)
    (ha : a < B ∨ B + n * (N * Wb) ≤ a) :
    (fillLoop cfg n (interleavedChans B N Wb) p m).1.bytes a = m.bytes a := by
  induction n generalizing B p m with
  | zero => rfl
  | succ n ih =>
    simp only [fillLoop]
    rw [channelLoop_snd, shiftChans_interleaved]
    have h2 : (n + 1) * (N * Wb) = n * (N * Wb) + N * Wb := by ring
    rw [ih _ _ _ (by omega), frame_bytes_unchanged _ _ _ _ _ hn _ _ (by omega)]

theorem fillLoop_bytes_written (cfg : Config K) (n B N Wb : Nat)
    (hn : bps cfg.format_bits ≤ Wb) (p : K) (m : Mem) (k j i : Nat)
    (hk : k < n) (hj : j < N) (hi : i < bps cfg.format_bits) :
    (fillLoop cfg n (interleavedChans B N Wb) p m).1.bytes (B + k * (N * Wb) + j * Wb + i)
      = byteOf (sampleValue cfg ((advance cfg)^[k] p)) i := by
  induction n generalizing B p m k with
  | zero => omega
  | succ n ih =>
    simp only [fillLoop]
    rw [channelLoop_snd, shiftChans_interleaved]
    cases k with
    | zero =>
      have h3 := slot_lt N Wb j i hj (by omega)
      rw [fillLoop_bytes_unchanged _ _ _ _ _ hn _ _ _ (by left; omega)]
      simp only [Nat.zero_mul, Nat.add_zero, Function.iterate_zero, id]
      exact frame_bytes_written _ _ B N Wb hn m j i hj hi
    | succ k =>
      have h2 : (k + 1) * (N * Wb) = k * (N * Wb) + N * Wb := by ring
      have h4 : B + (k + 1) * (N * Wb) + j * Wb + i
          = B + 1 * (N * Wb) + k * (N * Wb) + j * Wb + i := by omega
      rw [h4, ih _ _ _ k (by omega), Function.iterate_succ_apply]

/-! ## Validation of the areas -/

theorem prepareAreas_eq_some (o : Nat) (areas : List Area) (chans : List (Nat × Nat)) :
    prepareAreas o areas = some chans ↔
      (∀ a ∈ areas, a.first % 8 = 0 ∧ a.step % 16 = 0) ∧
        chans = areas.map (fun a => (sampleAddr a o, a.step / 8)) := by
  induction areas generalizing chans with
  | nil =>
    simp only [prepareAreas, List.map_nil, Option.some.injEq]
    constructor
    · intro h; exact ⟨by simp, h.symm⟩
    · intro h; exact h.2.symm
  | cons x rest ih =>
    simp only [prepareAreas]
    by_cases h1 : x.first % 8 ≠ 0
    · rw [if_pos h1]
      constructor
      · intro h; cases h
      · intro h; exact absurd (h.1 x (List.mem_cons_self _ _)).1 h1
    · by_cases h2 : x.step % 16 ≠ 0
      · rw [if_neg h1, if_pos h2]
        constructor
        · intro h; cases h
        · intro h; exact absurd (h.1 x (List.mem_cons_self _ _)).2 h2
      · rw [if_neg h1, if_neg h2]
        push_neg at h1 h2
        cases hp : prepareAreas o rest with
        | none =>
          constructor
          · intro h; cases h
          · intro h
            have h3 := (ih (rest.map (fun a => (sampleAddr a o, a.step / 8)))).2
              ⟨fun a ha => h.1 a (List.mem_cons_of_mem _ ha), rfl⟩
            rw [hp] at h3; cases h3
        | some cs =>
          have h3 := (ih cs).1 hp
          simp only [Option.some.injEq, List.map_cons]
          constructor
          · intro h
            refine ⟨?_, ?_⟩
            · intro a ha
              rcases List.mem_cons.1 ha with h4 | h4
              · rw [h4]; exact ⟨h1, h2⟩
              · exact h3.1 a h4
            · rw [← h, h3.2]; rfl
          · intro h
            rw [h.2, h3.2]; rfl

theorem prepareAreas_eq_none (o : Nat) (areas : List Area) :
    prepareAreas o areas = none ↔ ∃ a ∈ areas, a.first % 8 ≠ 0 ∨ a.step % 16 ≠ 0 := by
  constructor
  · intro h
    by_contra hne
    push_neg at hne
    have h2 := (prepareAreas_eq_some o areas _).2 ⟨hne, rfl⟩
    rw [h] at h2; cases h2
  · rintro ⟨a, ha, h⟩
    cases hp : prepareAreas o areas with
    | none => rfl
    | some chans =>
      have h2 := ((prepareAreas_eq_some o areas chans).1 hp).1 a ha
      rcases h with h | h
      · exact absurd h2.1 h
      · exact absurd h2.2 h

theorem generate_sine_eq_none (cfg : Config K) (areas : List Area) (o : Nat) (count : Int)
    (p : K) (m : Mem) :
    generate_sine cfg areas o count p m = none ↔
      ∃ a ∈ areas, a.first % 8 ≠ 0 ∨ a.step % 16 ≠ 0 := by
  rw [← prepareAreas_eq_none o areas]
  simp only [generate_sine]
  cases prepareAreas o areas with
  | none => simp
  | some chans => simp

theorem mainAreas_accepted_iff (base N W : Nat) (hN : 1 ≤ N) :
    (∀ a ∈ mainAreas base N W, a.first % 8 = 0 ∧ a.step % 16 = 0) ↔
      (W % 8 = 0 ∧ (N * W) % 16 = 0) := by
  simp only [mainAreas, List.mem_map, List.mem_range]
  constructor
  · intro h
    have h0 := h ⟨base, 0 * W, N * W⟩ ⟨0, by omega, rfl⟩
    simp only at h0
    refine ⟨?_, h0.2⟩
    by_cases h1 : N = 1
    · subst h1
      have := h0.2
      omega
    · have h2 := h ⟨base, 1 * W, N * W⟩ ⟨1, by omega, rfl⟩
      simp only at h2
      have := h2.1
      omega
  · rintro ⟨h1, h2⟩ a ⟨j, _, rfl⟩
    simp only
    refine ⟨?_, h2⟩
    exact Nat.mod_eq_zero_of_dvd (Dvd.dvd.mul_left (Nat.dvd_of_mod_eq_zero h1) j)

theorem prepareAreas_mainAreas (o base N W : Nat) (hW : W % 8 = 0) (chans : List (Nat × Nat))
    (h : prepareAreas o (mainAreas base N W) = some chans) :
    chans = interleavedChans (base + o * (N * (W / 8))) N (W / 8) := by
  rw [((prepareAreas_eq_some o _ chans).1 h).2]
  simp only [mainAreas, interleavedChans, List.map_map]
  apply List.map_congr_left
  intro j _
  obtain ⟨w, rfl⟩ : ∃ w, W = 8 * w := ⟨W / 8, by omega⟩
  have e1 : j * (8 * w) / 8 = j * w := by
    rw [show j * (8 * w) = 8 * (j * w) by ring]; exact Nat.mul_div_cancel_left _ (by norm_num)
  have e2 : N * (8 * w) / 8 = N * w := by
    rw [show N * (8 * w) = 8 * (N * w) by ring]; exact Nat.mul_div_cancel_left _ (by norm_num)
  have e3 : 8 * w / 8 = w := Nat.mul_div_cancel_left _ (by norm_num)
  simp only [Function.comp, sampleAddr, e1, e2, e3]
  congr 1
  ring

/-- On the layout of `main` a successful call is the fill loop on the
interleaved pointers, and the physical width is a whole number of bytes. -/
theorem generate_sine_mainAreas (cfg : Config K) (base N W o : Nat) (count : Int) (p : K)
    (m : Mem) (hN : 1 ≤ N) (r : Mem × K)
    (h : generate_sine cfg (mainAreas base N W) o count p m = some r) :
    W % 8 = 0 ∧
      r = fillLoop cfg count.toNat (interleavedChans (base + o * (N * (W / 8))) N (W / 8)) p m := by
  simp only [generate_sine] at h
  cases hp : prepareAreas o (mainAreas base N W) with
  | none => rw [hp] at h; cases h
  | some chans =>
    rw [hp] at h
    have hW : W % 8 = 0 :=
      ((mainAreas_accepted_iff base N W hN).1 ((prepareAreas_eq_some o _ chans).1 hp).1).1
    refine ⟨hW, ?_⟩
    rw [← prepareAreas_mainAreas o base N W hW chans hp]
    simpa using h.symm

theorem sampleAddr_mainAreas (base N W j f : Nat) (hW : W % 8 = 0) :
    sampleAddr ⟨base, j * W, N * W⟩ f = base + f * (N * (W / 8)) + j * (W / 8) := by
  obtain ⟨w, rfl⟩ : ∃ w, W = 8 * w := ⟨W / 8, by omega⟩
  have e1 : j * (8 * w) / 8 = j * w := by
    rw [show j * (8 * w) = 8 * (j * w) by ring]; exact Nat.mul_div_cancel_left _ (by norm_num)
  have e2 : N * (8 * w) / 8 = N * w := by
    rw [show N * (8 * w) = 8 * (N * w) by ring]; exact Nat.mul_div_cancel_left _ (by norm_num)
  have e3 : 8 * w / 8 = w := Nat.mul_div_cancel_left _ (by norm_num)
  simp only [sampleAddr, e1, e2, e3]
  ring

/-- Bytes of the samples after a successful call on the layout of `main`. -/
theorem generate_sine_sample_bytes (cfg : Config K) (base N W o : Nat) (count : Int) (p : K)
    (m : Mem) (hN : 1 ≤ N) (hbits : cfg.format_bits ≤ W) (r : Mem × K)
    (h : generate_sine cfg (mainAreas base N W) o count p m = some r)
    (k j i : Nat) (hk : k < count.toNat) (hj : j < N) (hi : i < bps cfg.format_bits) :
    r.1.bytes (sampleAddr ⟨base, j * W, N * W⟩ (o + k) + i)
      = byteOf (sampleValue cfg ((advance cfg)^[k] p)) i := by
  obtain ⟨hW, rfl⟩ := generate_sine_mainAreas cfg base N W o count p m hN r h
  have hb : bps cfg.format_bits ≤ W / 8 := Nat.div_le_div_right hbits
  rw [sampleAddr_mainAreas base N W j (o + k) hW]
  have e : base + (o + k) * (N * (W / 8)) + j * (W / 8) + i
      = base + o * (N * (W / 8)) + k * (N * (W / 8)) + j * (W / 8) + i := by ring
  rw [e]
  exact fillLoop_bytes_written cfg _ _ N (W / 8) hb p m k j i hk hj hi

/-! ## Encoding and decoding of one sample -/

theorem int_emod_mul (x a b : Int) (ha : 0 < a) (hb : 0 < b) :
    x % (a * b) = x % a + a * (x / a % b) := by
  have h1 := Int.emod_add_ediv x a
  have h2 := Int.emod_add_ediv (x / a) b
  have h3 : x = (x % a + a * (x / a % b)) + (a * b) * (x / a / b) := by
    linear_combination -h1 - a * h2
  have n1 : 0 ≤ x % a := Int.emod_nonneg _ (ne_of_gt ha)
  have n2 : x % a < a := Int.emod_lt_of_pos _ ha
  have n3 : 0 ≤ x / a % b := Int.emod_nonneg _ (ne_of_gt hb)
  have n4 : x / a % b < b := Int.emod_lt_of_pos _ hb
  have hr0 : 0 ≤ x % a + a * (x / a % b) := by positivity
  have hr1 : x % a + a * (x / a % b) < a * b := by nlinarith
  calc x % (a * b)
      = ((x % a + a * (x / a % b)) + (a * b) * (x / a / b)) % (a * b) := by rw [← h3]
    _ = (x % a + a * (x / a % b)) % (a * b) := Int.add_mul_emod_self_left _ _ _
    _ = x % a + a * (x / a % b) := Int.emod_eq_of_lt hr0 hr1

theorem byteOf_zero (res : Int) : ((byteOf res 0 : Nat) : Int) = res % 256 := by
  simp only [byteOf, Nat.zero_mul]
  rw [Int.toNat_of_nonneg (Int.emod_nonneg _ (by norm_num))]
  simp [Int.shiftRight_eq_div_pow]

theorem byteOf_succ (res : Int) (i : Nat) : byteOf res (i + 1) = byteOf (res / 256) i := by
  simp only [byteOf]
  rw [show (i + 1) * 8 = 8 + i * 8 by ring, Int.shiftRight_add]
  congr 3
  rw [Int.shiftRight_eq_div_pow]
  norm_num

theorem decodeLE_bytes (res : Int) (n : Nat) :
    ((decodeLE ((List.range n).map (byteOf res)) : Nat) : Int) = res % 256 ^ n := by
  induction n generalizing res with
  | zero => simp [decodeLE, Int.emod_one]
  | succ n ih =>
    rw [List.range_succ_eq_map, List.map_cons, List.map_map]
    have hf : (byteOf res) ∘ Nat.succ = byteOf (res / 256) := by
      funext i; exact byteOf_succ res i
    rw [hf]
    simp only [decodeLE]
    push_cast
    rw [ih, byteOf_zero, pow_succ, mul_comm ((256 : Int) ^ n) 256]
    exact (int_emod_mul res 256 (256 ^ n) (by norm_num) (by positivity)).symm

theorem toSigned_emod (bits : Nat) (hb : 1 ≤ bits) (res : Int)
    (h1 : -(2 : Int) ^ (bits - 1) ≤ res) (h2 : res < 2 ^ (bits - 1)) :
    toSigned bits (res % 2 ^ bits).toNat = res := by
  have hp : (2 : Int) ^ bits = 2 * 2 ^ (bits - 1) := by
    rw [← pow_succ', Nat.sub_add_cancel hb]
  have hpos : (0 : Int) < 2 ^ (bits - 1) := by positivity
  have hnn : 0 ≤ res % 2 ^ bits := Int.emod_nonneg _ (by positivity)
  simp only [toSigned]
  have hc : ((2 ^ (bits - 1) : Nat) : Int) = 2 ^ (bits - 1) := by push_cast; rfl
  by_cases hr : 0 ≤ res
  · have e : res % 2 ^ bits = res := Int.emod_eq_of_lt hr (by omega)
    rw [e]
    have : res.toNat < 2 ^ (bits - 1) := by
      have := Int.toNat_of_nonneg hr
      omega
    rw [if_pos this, Int.toNat_of_nonneg hr]
  · have e : res % 2 ^ bits = res + 2 ^ bits := by
      rw [← Int.add_mul_emod_self_left res (2 ^ bits) 1, mul_one]
      exact Int.emod_eq_of_lt (by omega) (by omega)
    rw [e]
    have hnn2 : 0 ≤ res + 2 ^ bits := by omega
    have : ¬ ((res + 2 ^ bits).toNat < 2 ^ (bits - 1)) := by
      have := Int.toNat_of_nonneg hnn2
      omega
    rw [if_neg this, Int.toNat_of_nonneg hnn2]
    ring

/-- Decoding the bytes `byteOf res 0 .. byteOf res (bits/8 - 1)` returns `res`
when `res` fits in `bits` bits. -/
theorem decode_encode (bits : Nat) (hb : 1 ≤ bits) (h8 : bits % 8 = 0) (res : Int)
    (h1 : -(2 : Int) ^ (bits - 1) ≤ res) (h2 : res < 2 ^ (bits - 1)) :
    toSigned bits (decodeLE ((List.range (bits / 8)).map (byteOf res))) = res := by
  have e : ((decodeLE ((List.range (bits / 8)).map (byteOf res)) : Nat) : Int)
      = res % 2 ^ bits := by
    rw [decodeLE_bytes]
    congr 1
    rw [show (256 : Int) = 2 ^ 8 by norm_num, ← pow_mul]
    congr 1
    omega
  have e2 : decodeLE ((List.range (bits / 8)).map (byteOf res)) = (res % 2 ^ bits).toNat := by
    rw [← e]; simp
  rw [e2]
  exact toSigned_emod bits hb res h1 h2

/-! ## Amplitude -/

theorem maxval_eq (bits : Nat) (h1 : 1 ≤ bits) (h2 : bits ≤ 32) :
    maxval bits = 2 ^ (bits - 1) - 1 := by
  simp only [maxval, Nat.one_shiftLeft]
  apply Nat.mod_eq_of_lt
  have : 2 ^ (bits - 1) ≤ 2 ^ 31 := Nat.pow_le_pow_right (by norm_num) (by omega)
  have : (2 : Nat) ^ 31 < 2 ^ 32 := by norm_num
  omega

theorem truncToInt_bound (x : K) (M : Nat) (h : |x| ≤ (M : K)) :
    -(M : Int) ≤ truncToInt x ∧ truncToInt x ≤ (M : Int) := by
  have hx := abs_le.1 h
  simp only [truncToInt]
  by_cases h0 : 0 ≤ x
  · rw [if_pos h0]
    constructor
    · have : (0 : Int) ≤ ⌊x⌋ := Int.floor_nonneg.2 h0
      omega
    · have : ⌊x⌋ < (M : Int) + 1 := by
        rw [Int.floor_lt]; push_cast; linarith [hx.2]
      omega
  · rw [if_neg h0]
    push_neg at h0
    constructor
    · have : -(M : Int) - 1 < ⌈x⌉ := by
        rw [Int.lt_ceil]; push_cast; linarith [hx.1]
      omega
    · have : ⌈x⌉ ≤ (0 : Int) := by
        rw [Int.ceil_le]; push_cast; exact le_of_lt h0
      omega

theorem sampleValue_bound (cfg : Config K) (phase : K) (hs : |cfg.sin phase| ≤ 1) :
    -(maxval cfg.format_bits : Int) ≤ sampleValue cfg phase ∧
      sampleValue cfg phase ≤ (maxval cfg.format_bits : Int) := by
  apply truncToInt_bound
  have hm : |(maxval cfg.format_bits : K)| = (maxval cfg.format_bits : K) :=
    abs_of_nonneg (Nat.cast_nonneg _)
  rw [abs_mul, hm]
  calc |cfg.sin phase| * (maxval cfg.format_bits : K)
      ≤ 1 * (maxval cfg.format_bits : K) :=
        mul_le_mul_of_nonneg_right hs (Nat.cast_nonneg _)
    _ = (maxval cfg.format_bits : K) := one_mul _

theorem maxval_cast (bits : Nat) (h1 : 1 ≤ bits) (h2 : bits ≤ 32) :
    ((maxval bits : Nat) : Int) = 2 ^ (bits - 1) - 1 := by
  rw [maxval_eq bits h1 h2]
  have : 1 ≤ 2 ^ (bits - 1) := Nat.one_le_two_pow
  push_cast [Nat.cast_sub this]
  rfl

/-- Reading a sample back on the layout of `main` returns the value computed
for its frame, when the sine stays within `[-1, 1]`. -/
theorem generate_sine_readSample (cfg : Config K) (base N W o : Nat) (count : Int) (p : K)
    (m : Mem) (hN : 1 ≤ N) (hbits : cfg.format_bits ≤ W)
    (h1 : 1 ≤ cfg.format_bits) (h8 : cfg.format_bits % 8 = 0) (h32 : cfg.format_bits ≤ 32)
    (hs : ∀ x, |cfg.sin x| ≤ 1) (r : Mem × K)
    (h : generate_sine cfg (mainAreas base N W) o count p m = some r)
    (k j : Nat) (hk : k < count.toNat) (hj : j < N) :
    readSample r.1 (sampleAddr ⟨base, j * W, N * W⟩ (o + k)) cfg.format_bits
      = sampleValue cfg ((advance cfg)^[k] p) := by
  have hbytes : (List.range (cfg.format_bits / 8)).map
        (fun i => r.1.bytes (sampleAddr ⟨base, j * W, N * W⟩ (o + k) + i))
      = (List.range (cfg.format_bits / 8)).map
          (byteOf (sampleValue cfg ((advance cfg)^[k] p))) := by
    apply List.map_congr_left
    intro i hi
    exact generate_sine_sample_bytes cfg base N W o count p m hN hbits r h k j i hk hj
      (List.mem_range.1 hi)
  simp only [readSample]
  rw [hbytes]
  have hb := sampleValue_bound cfg ((advance cfg)^[k] p) (hs _)
  rw [maxval_cast _ h1 h32] at hb
  exact decode_encode _ h1 h8 _ (by omega) (by omega)

/-! ## Phase -/

theorem generate_sine_phase (cfg : Config K) (areas : List Area) (o : Nat) (count : Int)
    (p : K) (m : Mem) (r : Mem × K) (h : generate_sine cfg areas o count p m = some r) :
    r.2 = (advance cfg)^[count.toNat] p := by
  simp only [generate_sine] at h
  cases hp : prepareAreas o areas with
  | none => rw [hp] at h; cases h
  | some chans =>
    rw [hp] at h
    simp only [Option.some.injEq] at h
    rw [← h, fillLoop_phase]

theorem generate_sine_isSome (cfg : Config K) (areas : List Area) (o : Nat) (count : Int)
    (p : K) (m : Mem) (hacc : ∀ a ∈ areas, a.first % 8 = 0 ∧ a.step % 16 = 0) :
    ∃ r, generate_sine cfg areas o count p m = some r := by
  cases h : generate_sine cfg areas o count p m with
  | some r => exact ⟨r, rfl⟩
  | none =>
    rcases (generate_sine_eq_none cfg areas o count p m).1 h with ⟨a, ha, h1⟩
    have := hacc a ha
    omega

theorem runCalls_phase (cfg : Config K) (areas : List Area)
    (hacc : ∀ a ∈ areas, a.first % 8 = 0 ∧ a.step % 16 = 0)
    (calls : List (Nat × Int)) (p : K) (m : Mem) :
    ∃ r, runCalls cfg areas calls p m = some r ∧
      r.2 = (advance cfg)^[totalFrames calls] p := by
  induction calls generalizing p m with
  | nil => exact ⟨(m, p), rfl, rfl⟩
  | cons c rest ih =>
    obtain ⟨r1, h1⟩ := generate_sine_isSome cfg areas c.1 c.2 p m hacc
    obtain ⟨r, h2, h3⟩ := ih r1.2 r1.1
    refine ⟨r, ?_, ?_⟩
    · simp only [runCalls, h1, Option.some_bind, h2]
    · rw [h3, generate_sine_phase cfg areas c.1 c.2 p m r1 h1]
      simp only [totalFrames, List.map_cons, List.sum_cons]
      rw [Nat.add_comm, Function.iterate_add_apply]

theorem advance_fract (cfg : Config K) (hM : 0 < cfg.max_phase) (hr : 0 < cfg.rate)
    (hf0 : 0 ≤ cfg.freq) (hf1 : cfg.freq ≤ (cfg.rate : K)) (n : Nat) :
    (advance cfg)^[n] 0 = cfg.max_phase * Int.fract ((n : K) * (cfg.freq / (cfg.rate : K))) := by
  have hrK : (0 : K) < (cfg.rate : K) := Nat.cast_pos.2 hr
  have ht0 : 0 ≤ cfg.freq / (cfg.rate : K) := div_nonneg hf0 (le_of_lt hrK)
  have ht1 : cfg.freq / (cfg.rate : K) ≤ 1 := (div_le_one hrK).2 hf1
  induction n with
  | zero => simp
  | succ n ih =>
    rw [Function.iterate_succ_apply', ih]
    set t := cfg.freq / (cfg.rate : K) with ht
    set u := Int.fract ((n : K) * t) with hu
    have hu0 : 0 ≤ u := Int.fract_nonneg _
    have hu1 : u < 1 := Int.fract_lt_one _
    have hfl : (n : K) * t - u = (⌊(n : K) * t⌋ : K) := by
      rw [hu, Int.fract]; ring
    have hstep : phaseStep cfg = cfg.max_phase * t := by
      simp only [phaseStep, ht]; ring
    simp only [advance, hstep]
    by_cases hc : 1 ≤ u + t
    · have hge : cfg.max_phase * u + cfg.max_phase * t ≥ cfg.max_phase := by nlinarith
      rw [if_pos hge]
      have hfr : Int.fract (((n + 1 : Nat) : K) * t) = u + t - 1 := by
        rw [Int.fract_eq_iff]
        refine ⟨by linarith, by linarith, ⌊(n : K) * t⌋ + 1, ?_⟩
        push_cast
        linear_combination hfl
      rw [hfr]; ring
    · push_neg at hc
      have hlt : ¬ (cfg.max_phase * u + cfg.max_phase * t ≥ cfg.max_phase) := by
        push_neg; nlinarith
      rw [if_neg hlt]
      have hfr : Int.fract (((n + 1 : Nat) : K) * t) = u + t := by
        rw [Int.fract_eq_iff]
        refine ⟨by linarith, hc, ⌊(n : K) * t⌋, ?_⟩
        push_cast
        linear_combination hfl
      rw [hfr]; ring

theorem fract_eq_fmod (M f : K) (r F : Nat) (hM : 0 < M) :
    M * Int.fract ((F : K) * (f / (r : K))) = fmod (M * f * (F : K) / (r : K)) M := by
  have e : M * f * (F : K) / (r : K) / M = (F : K) * (f / (r : K)) := by
    rw [show M * f * (F : K) / (r : K) / M = M * ((F : K) * (f / (r : K))) / M by ring]
    exact mul_div_cancel_left₀ _ (ne_of_gt hM)
  simp only [fmod, e, Int.fract]
  ring

/-! ## Claims about generate_sine -/

theorem demoConfig_sin_bound (x : ℚ) : |demoConfig.sin x| ≤ 1 := by
  have hpos : (0 : ℚ) < 1 + x * x := by nlinarith [mul_self_nonneg x]
  have e : demoConfig.sin x = 2 * x / (1 + x * x) := rfl
  rw [e, abs_le]
  constructor
  · rw [le_div_iff₀ hpos]; nlinarith [mul_self_nonneg (x + 1)]
  · rw [div_le_iff₀ hpos]; nlinarith [mul_self_nonneg (x - 1)]

theorem mainAreas_stereo16_accepted (base : Nat) :
    ∀ a ∈ mainAreas base 2 16, a.first % 8 = 0 ∧ a.step % 16 = 0 := by
  rw [mainAreas_accepted_iff base 2 16 (by norm_num)]
  decide

/-- Witness of claim C1 on the rational configuration: 2 frames then 3 frames
against 5 frames, stereo 16-bit layout. -/
theorem generate_sine_chunking_witness :
    ((0 : Int) ≤ 2 ∧ (0 : Int) ≤ 3) ∧
      (generate_sine demoConfig (mainAreas 0 2 16) 0 2 0 zeroMem).bind
          (fun r => generate_sine demoConfig (mainAreas 0 2 16) (0 + (2 : Int).toNat) 3 r.2 r.1)
        = generate_sine demoConfig (mainAreas 0 2 16) 0 (2 + 3) 0 zeroMem :=
  ⟨⟨by decide, by decide⟩,
    generate_sine_chunking demoConfig (mainAreas 0 2 16) 0 2 3 (by decide) (by decide) 0 zeroMem⟩

/-- Claim C2, as amended: with `max_phase > 0`, `rate > 0` and a tone frequency
`0 ≤ freq ≤ rate`, every sequence of calls on accepted areas that starts from
phase 0 and feeds each returned phase into the next call returns, and the
phase it returns is `(max_phase * freq * F / rate) mod max_phase` for the
cumulative frame count `F`; it lies in `[0, max_phase)`. -/
theorem phase_closed_form (cfg : Config K) (hM : 0 < cfg.max_phase) (hr : 0 < cfg.rate)
    (hf0 : 0 ≤ cfg.freq) (hf1 : cfg.freq ≤ (cfg.rate : K)) (areas : List Area)
    (hacc : ∀ a ∈ areas, a.first % 8 = 0 ∧ a.step % 16 = 0)
    (calls : List (Nat × Int)) (m : Mem) :
    ∃ r, runCalls cfg areas calls 0 m = some r ∧
      r.2 = fmod (cfg.max_phase * cfg.freq * (totalFrames calls : K) / (cfg.rate : K))
        cfg.max_phase ∧
      0 ≤ r.2 ∧ r.2 < cfg.max_phase := by
  obtain ⟨r, h1, h2⟩ := runCalls_phase cfg areas hacc calls 0 m
  have h3 := advance_fract cfg hM hr hf0 hf1 (totalFrames calls)
  refine ⟨r, h1, ?_, ?_, ?_⟩
  · rw [h2, h3, fract_eq_fmod _ _ _ _ hM]
  · rw [h2, h3]
    exact mul_nonneg (le_of_lt hM) (Int.fract_nonneg _)
  · rw [h2, h3]
    calc cfg.max_phase * Int.fract ((totalFrames calls : K) * (cfg.freq / (cfg.rate : K)))
        < cfg.max_phase * 1 := mul_lt_mul_of_pos_left (Int.fract_lt_one _) hM
      _ = cfg.max_phase := mul_one _

/-- Witness of the amended claim C2: 220 Hz at 44100 Hz, two calls of 3 and 4
frames on the stereo 16-bit layout. -/
theorem phase_closed_form_witness :
    ((0 : ℚ) < demoConfig.max_phase ∧ 0 < demoConfig.rate ∧ 0 ≤ demoConfig.freq ∧
        demoConfig.freq ≤ (demoConfig.rate : ℚ)) ∧
      ∃ r, runCalls demoConfig (mainAreas 0 2 16) [(0, 3), (3, 4)] 0 zeroMem = some r ∧
        r.2 = fmod (demoConfig.max_phase * demoConfig.freq *
            (totalFrames [(0, 3), (3, 4)] : ℚ) / (demoConfig.rate : ℚ)) demoConfig.max_phase ∧
        0 ≤ r.2 ∧ r.2 < demoConfig.max_phase :=
  ⟨⟨by norm_num [demoConfig], by norm_num [demoConfig], by norm_num [demoConfig],
      by norm_num [demoConfig]⟩,
    phase_closed_form demoConfig (by norm_num [demoConfig]) (by norm_num [demoConfig])
      (by norm_num [demoConfig]) (by norm_num [demoConfig]) (mainAreas 0 2 16)
      (mainAreas_stereo16_accepted 0) [(0, 3), (3, 4)] zeroMem⟩

/-- Counterexample to claim C2 as stated, over the reals with
`max_phase = 2π`: for `freq = 88200` and `rate = 44100` one call of one frame
from phase 0 returns `2π`, which is outside `[0, 2π)` and differs from
`(2π * 88200 * 1 / 44100) mod 2π = 0`. -/
theorem phase_closed_form_counterexample :
    ∃ r, runCalls (⟨88200, 44100, 16, 2 * Real.pi, Real.sin⟩ : Config ℝ) (mainAreas 0 2 16)
        [(0, 1)] 0 zeroMem = some r ∧
      r.2 = 2 * Real.pi ∧ ¬ (r.2 < 2 * Real.pi) ∧
      r.2 ≠ fmod (2 * Real.pi * 88200 * ((totalFrames [(0, 1)] : Nat) : ℝ) / ((44100 : Nat) : ℝ))
        (2 * Real.pi) := by
  obtain ⟨r, h1, h2⟩ := runCalls_phase (⟨88200, 44100, 16, 2 * Real.pi, Real.sin⟩ : Config ℝ)
    (mainAreas 0 2 16) (mainAreas_stereo16_accepted 0) [(0, 1)] 0 zeroMem
  have hpi := Real.pi_pos
  have hT : totalFrames [(0, 1)] = 1 := by decide
  have hval : r.2 = 2 * Real.pi := by
    rw [h2, hT]
    simp only [Function.iterate_succ, Function.iterate_zero, Function.comp, id, advance,
      phaseStep]
    have hge : (0 : ℝ) + 2 * Real.pi * 88200 / ((44100 : Nat) : ℝ) ≥ 2 * Real.pi := by
      push_cast; linarith
    rw [if_pos hge]
    push_cast
    ring
  have hmod : fmod (2 * Real.pi * 88200 * ((totalFrames [(0, 1)] : Nat) : ℝ)
      / ((44100 : Nat) : ℝ)) (2 * Real.pi) = 0 := by
    rw [hT]
    have e : 2 * Real.pi * 88200 * ((1 : Nat) : ℝ) / ((44100 : Nat) : ℝ) / (2 * Real.pi)
        = ((2 : Int) : ℝ) := by
      push_cast
      field_simp
      ring
    simp only [fmod, e, Int.floor_intCast]
    push_cast
    ring
  refine ⟨r, h1, hval, ?_, ?_⟩
  · rw [hval]; exact lt_irrefl _
  · rw [hval, hmod]; linarith

theorem truncToInt_spec (x : K) :
    (0 ≤ x → ((truncToInt x : Int) : K) ≤ x ∧ x < ((truncToInt x : Int) : K) + 1) ∧
      (x ≤ 0 → x ≤ ((truncToInt x : Int) : K) ∧ ((truncToInt x : Int) : K) - 1 < x) := by
  constructor
  · intro h
    simp only [truncToInt, if_pos h]
    exact ⟨Int.floor_le x, Int.lt_floor_add_one x⟩
  · intro h
    by_cases h0 : 0 ≤ x
    · have hx : x = 0 := le_antisymm h h0
      subst hx
      simp [truncToInt]
    · simp only [truncToInt, if_neg h0]
      refine ⟨Int.le_ceil x, ?_⟩
      have := Int.ceil_lt_add_one x
      linarith

/-- Claim C3, as amended: on the layout of `main`, for every frame `k` and
channel `j` a successful call writes, the bytes stored are the bytes of the
integer `T` obtained from `x = sin(phase_k) * maxAmplitude`,
`maxAmplitude = 2^(bits-1) - 1`, by discarding the fractional part
(truncation toward zero): `T ≤ x < T + 1` when `x ≥ 0` and
`T - 1 < x ≤ T` when `x ≤ 0`. -/
theorem generate_sine_sample_truncated (cfg : Config K) (base N W o : Nat) (count : Int)
    (p : K) (m : Mem) (hN : 1 ≤ N) (hbits : cfg.format_bits ≤ W)
    (h1 : 1 ≤ cfg.format_bits) (h32 : cfg.format_bits ≤ 32) (r : Mem × K)
    (h : generate_sine cfg (mainAreas base N W) o count p m = some r)
    (k j : Nat) (hk : k < count.toNat) (hj : j < N) :
    ∃ T : Int,
      (∀ i, i < bps cfg.format_bits →
        r.1.bytes (sampleAddr ⟨base, j * W, N * W⟩ (o + k) + i) = byteOf T i) ∧
      (0 ≤ cfg.sin ((advance cfg)^[k] p) * ((2 : K) ^ (cfg.format_bits - 1) - 1) →
        (T : K) ≤ cfg.sin ((advance cfg)^[k] p) * ((2 : K) ^ (cfg.format_bits - 1) - 1) ∧
        cfg.sin ((advance cfg)^[k] p) * ((2 : K) ^ (cfg.format_bits - 1) - 1) < (T : K) + 1) ∧
      (cfg.sin ((advance cfg)^[k] p) * ((2 : K) ^ (cfg.format_bits - 1) - 1) ≤ 0 →
        cfg.sin ((advance cfg)^[k] p) * ((2 : K) ^ (cfg.format_bits - 1) - 1) ≤ (T : K) ∧
        (T : K) - 1 < cfg.sin ((advance cfg)^[k] p) * ((2 : K) ^ (cfg.format_bits - 1) - 1)) := by
  have hm : ((maxval cfg.format_bits : Nat) : K) = (2 : K) ^ (cfg.format_bits - 1) - 1 := by
    have e := maxval_cast cfg.format_bits h1 h32
    have e2 : (((maxval cfg.format_bits : Nat) : Int) : K)
        = (((2 : Int) ^ (cfg.format_bits - 1) - 1 : Int) : K) := by rw [e]
    push_cast at e2
    exact e2
  refine ⟨sampleValue cfg ((advance cfg)^[k] p), ?_, ?_⟩
  · intro i hi
    exact generate_sine_sample_bytes cfg base N W o count p m hN hbits r h k j i hk hj hi
  · have hspec := truncToInt_spec
      (cfg.sin ((advance cfg)^[k] p) * ((maxval cfg.format_bits : Nat) : K))
    rw [hm] at hspec
    have hsv : sampleValue cfg ((advance cfg)^[k] p)
        = truncToInt (cfg.sin ((advance cfg)^[k] p) * ((2 : K) ^ (cfg.format_bits - 1) - 1)) := by
      simp only [sampleValue, hm]
    rw [hsv]
    exact hspec

/-- Witness of the amended claim C3: frame 1, channel 1 of a three-frame call
on the stereo 16-bit layout with the rational configuration. -/
theorem generate_sine_sample_truncated_witness :
    ∃ T : Int,
      (∀ i, i < bps demoConfig.format_bits →
        (fillLoop demoConfig (3 : Int).toNat (interleavedChans 0 2 2) 1 zeroMem).1.bytes
          (sampleAddr ⟨0, 1 * 16, 2 * 16⟩ (0 + 1) + i) = byteOf T i) ∧
      (0 ≤ demoConfig.sin ((advance demoConfig)^[1] 1) *
          ((2 : ℚ) ^ (demoConfig.format_bits - 1) - 1) →
        (T : ℚ) ≤ demoConfig.sin ((advance demoConfig)^[1] 1) *
            ((2 : ℚ) ^ (demoConfig.format_bits - 1) - 1) ∧
        demoConfig.sin ((advance demoConfig)^[1] 1) *
            ((2 : ℚ) ^ (demoConfig.format_bits - 1) - 1) < (T : ℚ) + 1) ∧
      (demoConfig.sin ((advance demoConfig)^[1] 1) *
          ((2 : ℚ) ^ (demoConfig.format_bits - 1) - 1) ≤ 0 →
        demoConfig.sin ((advance demoConfig)^[1] 1) *
            ((2 : ℚ) ^ (demoConfig.format_bits - 1) - 1) ≤ (T : ℚ) ∧
        (T : ℚ) - 1 < demoConfig.sin ((advance demoConfig)^[1] 1) *
            ((2 : ℚ) ^ (demoConfig.format_bits - 1) - 1)) :=
  generate_sine_sample_truncated demoConfig 0 2 16 0 3 1 zeroMem (by decide) (by decide)
    (by decide) (by decide) _ rfl 1 1 (by decide) (by decide)

/-- Counterexample to claim C3 as stated, over the reals with the real sine:
at phase `π/4` with 16-bit samples the value encoded is 23169, while
`sin(π/4) * 32767 = 23169.77…` rounds to 23170. -/
theorem sample_rounding_counterexample :
    ∃ r, generate_sine (⟨220, 44100, 16, 2 * Real.pi, Real.sin⟩ : Config ℝ) (mainAreas 0 2 16)
        0 1 (Real.pi / 4) zeroMem = some r ∧
      readSample r.1 (sampleAddr ⟨0, 0 * 16, 2 * 16⟩ (0 + 0)) 16 = 23169 ∧
      round (Real.sin (Real.pi / 4) * ((2 : ℝ) ^ (16 - 1) - 1)) = 23170 := by
  obtain ⟨r, h⟩ := generate_sine_isSome (⟨220, 44100, 16, 2 * Real.pi, Real.sin⟩ : Config ℝ)
    (mainAreas 0 2 16) 0 1 (Real.pi / 4) zeroMem (mainAreas_stereo16_accepted 0)
  have hs2 : Real.sqrt 2 * Real.sqrt 2 = 2 := Real.mul_self_sqrt (by norm_num)
  have hs0 : 0 ≤ Real.sqrt 2 := Real.sqrt_nonneg 2
  have hlo : (46339.5 : ℝ) < 32767 * Real.sqrt 2 := by nlinarith
  have hhi : (32767 : ℝ) * Real.sqrt 2 < 46340 := by nlinarith
  have hx : Real.sin (Real.pi / 4) * ((2 : ℝ) ^ (16 - 1) - 1) = 32767 * Real.sqrt 2 / 2 := by
    rw [Real.sin_pi_div_four]; norm_num; ring
  refine ⟨r, h, ?_, ?_⟩
  · have hread := generate_sine_readSample
      (⟨220, 44100, 16, 2 * Real.pi, Real.sin⟩ : Config ℝ) 0 2 16 0 1 (Real.pi / 4) zeroMem
      (by norm_num) (by norm_num) (by norm_num) (by norm_num) (by norm_num)
      (fun x => Real.abs_sin_le_one x) r h 0 0 (by decide) (by norm_num)
    rw [hread]
    have hmv : ((maxval 16 : Nat) : ℝ) = (2 : ℝ) ^ (16 - 1) - 1 := by
      rw [maxval_eq 16 (by norm_num) (by norm_num)]; norm_num
    simp only [sampleValue, Function.iterate_zero, id, hmv, hx, truncToInt]
    rw [if_pos (by linarith), Int.floor_eq_iff]
    constructor
    · push_cast; linarith
    · push_cast; linarith
  · rw [hx, round_eq, Int.floor_eq_iff]
    constructor
    · push_cast; linarith
    · push_cast; linarith

/-- Claim C4: with a sample width of 8, 16, 24 or 32 bits and the sine within
`[-1, 1]`, on the layout of `main` reading back the `bits / 8` bytes of any
written sample (frame `k`, channel `j`) least significant byte first as a
two's-complement integer gives a value `v` with
`-(2^(bits-1) - 1) ≤ v ≤ 2^(bits-1) - 1`; byte `i` of the sample is
`(sample >> 8*i) & 0xff` and `v` is the sample value that was computed. -/
theorem generate_sine_amplitude_bound (cfg : Config K) (base N W o : Nat) (count : Int) (p : K)
    (m : Mem) (hN : 1 ≤ N) (hbits : cfg.format_bits ≤ W)
    (h1 : 1 ≤ cfg.format_bits) (h8 : cfg.format_bits % 8 = 0) (h32 : cfg.format_bits ≤ 32)
    (hs : ∀ x, |cfg.sin x| ≤ 1) (r : Mem × K)
    (h : generate_sine cfg (mainAreas base N W) o count p m = some r)
    (k j : Nat) (hk : k < count.toNat) (hj : j < N) :
    -((2 : Int) ^ (cfg.format_bits - 1) - 1)
        ≤ readSample r.1 (sampleAddr ⟨base, j * W, N * W⟩ (o + k)) cfg.format_bits ∧
      readSample r.1 (sampleAddr ⟨base, j * W, N * W⟩ (o + k)) cfg.format_bits
        ≤ (2 : Int) ^ (cfg.format_bits - 1) - 1 ∧
      readSample r.1 (sampleAddr ⟨base, j * W, N * W⟩ (o + k)) cfg.format_bits
        = sampleValue cfg ((advance cfg)^[k] p) ∧
      ∀ i, i < cfg.format_bits / 8 →
        r.1.bytes (sampleAddr ⟨base, j * W, N * W⟩ (o + k) + i)
          = (((sampleValue cfg ((advance cfg)^[k] p)) >>> (i * 8)) % 256).toNat := by
  have hread := generate_sine_readSample cfg base N W o count p m hN hbits h1 h8 h32 hs r h
    k j hk hj
  have hb := sampleValue_bound cfg ((advance cfg)^[k] p) (hs _)
  rw [maxval_cast _ h1 h32] at hb
  rw [hread]
  refine ⟨hb.1, hb.2, rfl, ?_⟩
  intro i hi
  exact generate_sine_sample_bytes cfg base N W o count p m hN hbits r h k j i hk hj hi

/-- Witness of claim C4: frame 2, channel 1 of a three-frame call on the
stereo 16-bit layout with the rational configuration. -/
theorem generate_sine_amplitude_bound_witness :
    -((2 : Int) ^ (demoConfig.format_bits - 1) - 1)
        ≤ readSample (fillLoop demoConfig (3 : Int).toNat (interleavedChans 0 2 2) 1 zeroMem).1
            (sampleAddr ⟨0, 1 * 16, 2 * 16⟩ (0 + 2)) demoConfig.format_bits ∧
      readSample (fillLoop demoConfig (3 : Int).toNat (interleavedChans 0 2 2) 1 zeroMem).1
          (sampleAddr ⟨0, 1 * 16, 2 * 16⟩ (0 + 2)) demoConfig.format_bits
        ≤ (2 : Int) ^ (demoConfig.format_bits - 1) - 1 ∧
      readSample (fillLoop demoConfig (3 : Int).toNat (interleavedChans 0 2 2) 1 zeroMem).1
          (sampleAddr ⟨0, 1 * 16, 2 * 16⟩ (0 + 2)) demoConfig.format_bits
        = sampleValue demoConfig ((advance demoConfig)^[2] 1) ∧
      ∀ i, i < demoConfig.format_bits / 8 →
        (fillLoop demoConfig (3 : Int).toNat (interleavedChans 0 2 2) 1 zeroMem).1.bytes
            (sampleAddr ⟨0, 1 * 16, 2 * 16⟩ (0 + 2) + i)
          = (((sampleValue demoConfig ((advance demoConfig)^[2] 1)) >>> (i * 8)) % 256).toNat :=
  generate_sine_amplitude_bound demoConfig 0 2 16 0 3 1 zeroMem (by decide) (by decide)
    (by decide) (by decide) (by decide) demoConfig_sin_bound _ rfl 2 1 (by decide) (by decide)

/-- Claim C5: on the interleaved layout of `main` (`N ≥ 1` channels, channel
`j` at bit offset `j * W`, bit step `N * W`, format width at most `W`), after
a successful call every byte of the sample of frame `k` is the same in any
two channels, equal to the byte of the one value computed for the frame (so
no later store overwrote it), and the two channels decode to the same value. -/
theorem generate_sine_channel_identity (cfg : Config K) (base N W o : Nat) (count : Int)
    (p : K) (m : Mem) (hN : 1 ≤ N) (hbits : cfg.format_bits ≤ W) (r : Mem × K)
    (h : generate_sine cfg (mainAreas base N W) o count p m = some r)
    (k j1 j2 : Nat) (hk : k < count.toNat) (hj1 : j1 < N) (hj2 : j2 < N) :
    (∀ i, i < bps cfg.format_bits →
        r.1.bytes (sampleAddr ⟨base, j1 * W, N * W⟩ (o + k) + i)
            = r.1.bytes (sampleAddr ⟨base, j2 * W, N * W⟩ (o + k) + i) ∧
          r.1.bytes (sampleAddr ⟨base, j1 * W, N * W⟩ (o + k) + i)
            = byteOf (sampleValue cfg ((advance cfg)^[k] p)) i) ∧
      readSample r.1 (sampleAddr ⟨base, j1 * W, N * W⟩ (o + k)) cfg.format_bits
        = readSample r.1 (sampleAddr ⟨base, j2 * W, N * W⟩ (o + k)) cfg.format_bits := by
  have hb := fun j hj i hi =>
    generate_sine_sample_bytes cfg base N W o count p m hN hbits r h k j i hk hj hi
  refine ⟨fun i hi => ⟨by rw [hb j1 hj1 i hi, hb j2 hj2 i hi], hb j1 hj1 i hi⟩, ?_⟩
  simp only [readSample]
  congr 2
  apply List.map_congr_left
  intro i hi
  have hi2 : i < bps cfg.format_bits := List.mem_range.1 hi
  rw [hb j1 hj1 i hi2, hb j2 hj2 i hi2]

/-- Witness of claim C5: channels 0 and 1 of frame 1 of a three-frame call at
frame offset 4 on the stereo 16-bit layout. -/
theorem generate_sine_channel_identity_witness :
    (∀ i, i < bps demoConfig.format_bits →
        (fillLoop demoConfig (3 : Int).toNat (interleavedChans (0 + 4 * (2 * (16 / 8))) 2 (16 / 8))
              1 zeroMem).1.bytes (sampleAddr ⟨0, 0 * 16, 2 * 16⟩ (4 + 1) + i)
            = (fillLoop demoConfig (3 : Int).toNat
                (interleavedChans (0 + 4 * (2 * (16 / 8))) 2 (16 / 8)) 1 zeroMem).1.bytes
                (sampleAddr ⟨0, 1 * 16, 2 * 16⟩ (4 + 1) + i) ∧
          (fillLoop demoConfig (3 : Int).toNat (interleavedChans (0 + 4 * (2 * (16 / 8))) 2 (16 / 8))
              1 zeroMem).1.bytes (sampleAddr ⟨0, 0 * 16, 2 * 16⟩ (4 + 1) + i)
            = byteOf (sampleValue demoConfig ((advance demoConfig)^[1] 1)) i) ∧
      readSample (fillLoop demoConfig (3 : Int).toNat
            (interleavedChans (0 + 4 * (2 * (16 / 8))) 2 (16 / 8)) 1 zeroMem).1
          (sampleAddr ⟨0, 0 * 16, 2 * 16⟩ (4 + 1)) demoConfig.format_bits
        = readSample (fillLoop demoConfig (3 : Int).toNat
            (interleavedChans (0 + 4 * (2 * (16 / 8))) 2 (16 / 8)) 1 zeroMem).1
          (sampleAddr ⟨0, 1 * 16, 2 * 16⟩ (4 + 1)) demoConfig.format_bits :=
  generate_sine_channel_identity demoConfig 0 2 16 4 3 1 zeroMem (by decide) (by decide) _ rfl
    1 0 1 (by decide) (by decide) (by decide)

/-- Claim C6, evaluated at the failing input: the one-channel 8-bit layout
`first = 0`, `step = 8` is whole-byte aligned (both are multiples of 8), yet
`generate_sine` exits on it, because the step is tested against 16. -/
theorem generate_sine_rejects_byte_aligned_step (cfg : Config K) (o : Nat) (count : Int)
    (p : K) (m : Mem) :
    (∀ a ∈ mainAreas 0 1 8, a.first % 8 = 0 ∧ a.step % 8 = 0) ∧
      generate_sine cfg (mainAreas 0 1 8) o count p m = none := by
  constructor
  · intro a ha
    simp only [mainAreas, List.mem_map, List.mem_range] at ha
    rcases ha with ⟨j, hj, rfl⟩
    have : j = 0 := by omega
    subst this
    decide
  · rw [generate_sine_eq_none]
    exact ⟨⟨0, 0 * 8, 1 * 8⟩, by simp [mainAreas], Or.inr (by decide)⟩

/-- Claim C10: with `N ≥ 1` channels, a physical width `W` that is a multiple
of 8 bits, a format width at most `W` and period size `P ≥ 0`, every address
that `generate_sine(areas, 0, P, phase)` stores to on the areas of `main` lies
in the buffer of `(P * N * W) / 8` bytes that `main` allocates at `base`. -/
theorem generate_sine_writes_inside_buffer (cfg : Config K) (base N W P : Nat) (hN : 1 ≤ N)
    (hW : W % 8 = 0) (hbits : cfg.format_bits ≤ W) (p : K) (bytes : Nat → Nat) (r : Mem × K)
    (h : generate_sine cfg (mainAreas base N W) 0 (P : Int) p ⟨bytes, []⟩ = some r) :
    ∀ x ∈ r.1.log, base ≤ x ∧ (x : Int) < (base : Int) + mainBufferSize (P : Int) N W := by
  obtain ⟨_, rfl⟩ := generate_sine_mainAreas cfg base N W 0 (P : Int) p ⟨bytes, []⟩ hN r h
  have hb : bps cfg.format_bits ≤ W / 8 := Nat.div_le_div_right hbits
  intro x hx
  rcases fillLoop_log cfg _ _ N (W / 8) hb p ⟨bytes, []⟩ x hx with h1 | h1
  · simp at h1
  · have e : mainBufferSize (P : Int) N W = ((P * (N * (W / 8)) : Nat) : Int) := by
      obtain ⟨w, rfl⟩ : ∃ w, W = 8 * w := ⟨W / 8, by omega⟩
      have hn : P * N * (8 * w) / 8 = P * (N * (8 * w / 8)) := by
        rw [show P * N * (8 * w) = 8 * (P * (N * w)) by ring,
          Nat.mul_div_cancel_left _ (by norm_num), Nat.mul_div_cancel_left _ (by norm_num)]
      simp only [mainBufferSize]
      rw [Int.tdiv_eq_ediv (by positivity) (by norm_num), ← hn]
      push_cast
      rfl
    rw [e]
    simp only [Int.toNat_ofNat, Nat.zero_mul, Nat.add_zero] at h1
    refine ⟨h1.1, ?_⟩
    have := h1.2
    omega

/-- Witness of claim C10: a period of 3 frames on the stereo 16-bit layout. -/
theorem generate_sine_writes_inside_buffer_witness :
    (1 ≤ 2 ∧ 16 % 8 = 0 ∧ demoConfig.format_bits ≤ 16) ∧
      ∀ x ∈ (fillLoop demoConfig ((3 : Nat) : Int).toNat (interleavedChans 0 2 2) 1
          ⟨fun _ => 0, []⟩).1.log,
        0 ≤ x ∧ (x : Int) < ((0 : Nat) : Int) + mainBufferSize ((3 : Nat) : Int) 2 16 :=
  ⟨⟨by decide, by decide, by decide⟩,
    generate_sine_writes_inside_buffer demoConfig 0 2 16 3 (by decide) (by decide) (by decide) 1
      (fun _ => 0) _ rfl⟩

/-! ## Bookkeeping for the record of events -/

@[simp]
theorem Sys.call_trace (d : Device σ) (s : Sys σ F) (c : Call) :
    (s.call d c).2.trace = Event.call c (s.call d c).1 :: s.trace := rfl

@[simp]
theorem Sys.call_period_size (d : Device σ) (s : Sys σ F) (c : Call) :
    (s.call d c).2.period_size = s.period_size := rfl

@[simp]
theorem Sys.print_trace (s : Sys σ F) (line : Nat) :
    (s.print line).trace = Event.printf line :: s.trace := rfl

@[simp]
theorem Sys.print_period_size (s : Sys σ F) (line : Nat) :
    (s.print line).period_size = s.period_size := rfl

@[simp]
theorem Sys.setData_trace (s : Sys σ F) (g : Mem × F) :
    (s.setData g).trace = s.trace := rfl

@[simp]
theorem Sys.setData_period_size (s : Sys σ F) (g : Mem × F) :
    (s.setData g).period_size = s.period_size := rfl

@[simp]
theorem Sys.setBufferSize_trace (s : Sys σ F) (n : Nat) :
    (s.setBufferSize n).trace = s.trace := rfl

@[simp]
theorem Sys.setPeriodSize_trace (s : Sys σ F) (n : Nat) :
    (s.setPeriodSize n).trace = s.trace := rfl

@[simp]
theorem writes_nil : writes [] = [] := rfl

@[simp]
theorem writes_writei (n : Int) (r : Reply) (t : List Event) :
    writes (Event.call (Call.snd_pcm_writei n) r :: t) = (n, r.ret) :: writes t := rfl

@[simp]
theorem writes_avail (r : Reply) (t : List Event) :
    writes (Event.call Call.snd_pcm_avail_update r :: t) = writes t := rfl

@[simp]
theorem writes_printf (l : Nat) (t : List Event) :
    writes (Event.printf l :: t) = writes t := rfl

@[simp]
theorem writes_handler (r : Reply) (t : List Event) :
    writes (Event.call Call.snd_async_add_pcm_handler r :: t) = writes t := rfl

@[simp]
theorem writes_state (r : Reply) (t : List Event) :
    writes (Event.call Call.snd_pcm_state r :: t) = writes t := rfl

@[simp]
theorem writes_start (r : Reply) (t : List Event) :
    writes (Event.call Call.snd_pcm_start r :: t) = writes t := rfl

theorem framesTransferred_writes (t1 t2 : List Event) (h : writes t1 = writes t2) :
    framesTransferred t1 = framesTransferred t2 := by
  simp only [framesTransferred, h]

theorem framesTransferred_writei (n : Int) (r : Reply) (t : List Event) :
    framesTransferred (Event.call (Call.snd_pcm_writei n) r :: t)
      = max r.ret 0 + framesTransferred t := by
  simp [framesTransferred]

theorem writesGuarded_skip (P : Int) (e : Event) (t : List Event) (h : e.writeReq = none) :
    writesGuarded P (e :: t) = writesGuarded P t := by
  simp [writesGuarded, h]

theorem writesGuarded_avail (P : Int) (a : Reply) (t : List Event) :
    writesGuarded P (Event.call Call.snd_pcm_avail_update a :: t) = writesGuarded P t :=
  writesGuarded_skip P _ t rfl

theorem writesGuarded_printf (P : Int) (l : Nat) (t : List Event) :
    writesGuarded P (Event.printf l :: t) = writesGuarded P t :=
  writesGuarded_skip P _ t rfl

theorem writesGuarded_writei (P n : Int) (r a : Reply) (t : List Event) :
    writesGuarded P (Event.call (Call.snd_pcm_writei n) r ::
        Event.call Call.snd_pcm_avail_update a :: t)
      = (decide (P ≤ a.ret) && writesGuarded P (Event.call Call.snd_pcm_avail_update a :: t)) := by
  simp [writesGuarded, Event.writeReq, Event.availReply]

/-! ## The refill loop -/

theorem toInt32_eq_self (x : Int) (h1 : -2 ^ 31 ≤ x) (h2 : x < 2 ^ 31) : toInt32 x = x := by
  simp only [toInt32]
  norm_num at h1 h2 ⊢
  omega

theorem toUInt64_eq_self (x : Int) (h1 : 0 ≤ x) (h2 : x < 2 ^ 63) : toUInt64 x = x := by
  simp only [toUInt64]
  norm_num at h2 ⊢
  omega

theorem RefillOk.avail (P : Int) (a : Reply) (t : List Event) (h : RefillOk P t) :
    RefillOk P (Event.call Call.snd_pcm_avail_update a :: t) :=
  ⟨by simpa using h.1, by rw [writesGuarded_avail]; exact h.2⟩

theorem RefillOk.printf (P : Int) (l : Nat) (t : List Event) (h : RefillOk P t) :
    RefillOk P (Event.printf l :: t) :=
  ⟨by simpa using h.1, by rw [writesGuarded_printf]; exact h.2⟩

theorem RefillOk.writei (P : Int) (r a : Reply) (t : List Event) (hav : P ≤ a.ret)
    (h : RefillOk P (Event.call Call.snd_pcm_avail_update a :: t)) :
    RefillOk P (Event.call (Call.snd_pcm_writei P) r ::
      Event.call Call.snd_pcm_avail_update a :: t) := by
  constructor
  · intro w hw
    rw [writes_writei, List.mem_cons] at hw
    rcases hw with h1 | h1
    · rw [h1]
    · exact h.1 w h1
  · rw [writesGuarded_writei, h.2]
    simpa using hav

theorem framesTransferred_full (P : Int) (hP : 0 ≤ P) (t : List Event)
    (h : ∀ w ∈ writes t, w.2 = P) :
    framesTransferred t = ((writes t).length : Int) * P := by
  simp only [framesTransferred]
  generalize writes t = l at h
  induction l with
  | nil => simp
  | cons w rest ih =>
    have hw : w.2 = P := h w (List.mem_cons_self _ _)
    have hr := ih (fun x hx => h x (List.mem_cons_of_mem _ hx))
    simp only [List.map_cons, List.sum_cons, List.length_cons, hr, hw, max_eq_left hP]
    push_cast
    ring

theorem refillLoop_spec (d : Device σ) (cfg : Config K) (areas : List Area) (P : Int)
    (hP0 : 0 < P) (hP1 : P < 2 ^ 63)
    (hdev : ∀ st, -2 ^ 31 ≤ (d st (Call.snd_pcm_writei P)).1.ret ∧
      (d st (Call.snd_pcm_writei P)).1.ret < 2 ^ 31)
    (fuel : Nat) (a : Reply) (t : List Event) (s : Sys σ K) (hPs : s.period_size = P)
    (hs : s.trace = Event.call Call.snd_pcm_avail_update a :: t)
    (hok : RefillOk P s.trace) (hfull : ∀ w ∈ writes s.trace, w.2 = P) :
    RefillOk P (refillLoop d cfg areas fuel a.ret s).2.trace ∧
      (∀ w ∈ (writes (refillLoop d cfg areas fuel a.ret s).2.trace).tail, w.2 = P) ∧
      ((refillLoop d cfg areas fuel a.ret s).1 ≠ Outcome.exited →
        ∀ w ∈ writes (refillLoop d cfg areas fuel a.ret s).2.trace, w.2 = P) := by
  have htail : ∀ w ∈ (writes s.trace).tail, w.2 = P :=
    fun w hw => hfull w (List.mem_of_mem_tail hw)
  induction fuel generalizing a t s with
  | zero =>
    simp only [refillLoop]
    split_ifs
    · exact ⟨hok, htail, fun _ => hfull⟩
    · exact ⟨hok, htail, fun _ => hfull⟩
  | succ fuel ih =>
    simp only [refillLoop]
    by_cases hav : a.ret ≥ s.period_size
    · rw [if_pos hav]
      cases hgen : generate_sine cfg areas 0 (toInt32 s.period_size) s.phase s.mem with
      | none =>
        exact ⟨RefillOk.printf _ _ _ hok, htail, fun h => absurd rfl h⟩
      | some g =>
        simp only
        rw [hPs, toUInt64_eq_self P (le_of_lt hP0) hP1]
        have hr := hdev s.dev
        have e32 : toInt32 ((s.setData g).call d (Call.snd_pcm_writei P)).1.ret
            = ((s.setData g).call d (Call.snd_pcm_writei P)).1.ret :=
          toInt32_eq_self _ hr.1 hr.2
        rw [e32]
        have hok1 : RefillOk P (Event.call (Call.snd_pcm_writei P)
              ((s.setData g).call d (Call.snd_pcm_writei P)).1 :: s.trace) := by
          rw [hs] at hok ⊢
          exact RefillOk.writei _ _ _ _ (by rw [← hPs]; exact hav) hok
        have htail1 : ∀ w ∈ (writes (Event.call (Call.snd_pcm_writei P)
              ((s.setData g).call d (Call.snd_pcm_writei P)).1 :: s.trace)).tail, w.2 = P := by
          intro w hw
          rw [writes_writei, List.tail_cons] at hw
          exact hfull w hw
        by_cases hneg : ((s.setData g).call d (Call.snd_pcm_writei P)).1.ret < 0
        · rw [if_pos hneg]
          exact ⟨RefillOk.printf _ _ _ hok1, htail1, fun h => absurd rfl h⟩
        · rw [if_neg hneg]
          by_cases hne : ((s.setData g).call d (Call.snd_pcm_writei P)).1.ret ≠ P
          · rw [if_pos hne]
            exact ⟨RefillOk.printf _ _ _ hok1, htail1, fun h => absurd rfl h⟩
          · rw [if_neg hne]
            push_neg at hne
            have hfull1 : ∀ w ∈ writes (((s.setData g).call d
                (Call.snd_pcm_writei P)).2.call d Call.snd_pcm_avail_update).2.trace,
                w.2 = P := by
              intro w hw
              simp only [Sys.call_trace, Sys.setData_trace, writes_avail, writes_writei,
                List.mem_cons] at hw
              rcases hw with h1 | h1
              · rw [h1]; exact hne
              · exact hfull w h1
            exact ih _ _ _ hPs rfl (RefillOk.avail _ _ _ hok1) hfull1
              (fun w hw => hfull1 w (List.mem_of_mem_tail hw))
    · rw [if_neg hav]
      exact ⟨hok, htail, fun _ => hfull⟩

/-! ## Priming -/

theorem primeLoop_spec (d : Device σ) (cfg : Config K) (areas : List Area) (P : Int)
    (hP0 : 0 < P) (hP1 : P < 2 ^ 63)
    (hdev : ∀ st, -2 ^ 31 ≤ (d st (Call.snd_pcm_writei P)).1.ret ∧
      (d st (Call.snd_pcm_writei P)).1.ret < 2 ^ 31)
    (n : Nat) (s : Sys σ K) (hPs : s.period_size = P) :
    (∀ w ∈ writes (primeLoop d cfg areas n s).2.trace, w ∈ writes s.trace ∨ w.1 = P) ∧
      ((primeLoop d cfg areas n s).1 = Outcome.returned →
        writes (primeLoop d cfg areas n s).2.trace
          = List.replicate n (P, P) ++ writes s.trace) ∧
      ((primeLoop d cfg areas n s).1 = Outcome.returned ∨
        (primeLoop d cfg areas n s).1 = Outcome.exited) ∧
      (∀ rep, Event.call Call.snd_pcm_start rep ∈ (primeLoop d cfg areas n s).2.trace →
        Event.call Call.snd_pcm_start rep ∈ s.trace) ∧
      ((∀ w ∈ writes s.trace, w.2 = P) →
        ∀ w ∈ (writes (primeLoop d cfg areas n s).2.trace).tail, w.2 = P) ∧
      (writes (primeLoop d cfg areas n s).2.trace).length ≤ n + (writes s.trace).length := by
  induction n generalizing s with
  | zero =>
    rw [primeLoop]
    exact ⟨fun w hw => Or.inl hw, fun _ => (by simp), Or.inl rfl, fun _ h => h,
      fun hf w hw => hf w (List.mem_of_mem_tail hw), by simp⟩
  | succ n ih =>
    rw [primeLoop]
    cases hgen : generate_sine cfg areas 0 (toInt32 s.period_size) s.phase s.mem with
    | none =>
      refine ⟨fun w hw => Or.inl hw, fun h => (by cases h), Or.inr rfl, ?_,
        fun hf w hw => hf w (List.mem_of_mem_tail hw), ?_⟩
      · intro rep hrep
        simpa using hrep
      · simp only [Sys.print_trace, writes_printf]
        omega
    | some g =>
      simp only
      rw [hPs, toUInt64_eq_self P (le_of_lt hP0) hP1]
      have hr := hdev s.dev
      have e32 : toInt32 ((s.setData g).call d (Call.snd_pcm_writei P)).1.ret
          = ((s.setData g).call d (Call.snd_pcm_writei P)).1.ret :=
        toInt32_eq_self _ hr.1 hr.2
      rw [e32]
      have hexit : ∀ l : Nat,
          (∀ w ∈ writes (((s.setData g).call d (Call.snd_pcm_writei P)).2.print l).trace,
              w ∈ writes s.trace ∨ w.1 = P) ∧
            (∀ rep, Event.call Call.snd_pcm_start rep ∈
                (((s.setData g).call d (Call.snd_pcm_writei P)).2.print l).trace →
              Event.call Call.snd_pcm_start rep ∈ s.trace) ∧
            ((∀ w ∈ writes s.trace, w.2 = P) →
              ∀ w ∈ (writes (((s.setData g).call d
                (Call.snd_pcm_writei P)).2.print l).trace).tail, w.2 = P) ∧
            (writes (((s.setData g).call d (Call.snd_pcm_writei P)).2.print l).trace).length
              ≤ n + 1 + (writes s.trace).length := by
        intro l
        simp only [Sys.print_trace, Sys.call_trace, Sys.setData_trace, writes_printf,
          writes_writei, List.mem_cons, List.tail_cons, List.length_cons]
        refine ⟨?_, ?_, fun hf => hf, by omega⟩
        · intro w hw
          rcases hw with h1 | h1
          · right; rw [h1]
          · left; exact h1
        · intro rep hrep
          simpa using hrep
      by_cases hneg : ((s.setData g).call d (Call.snd_pcm_writei P)).1.ret < 0
      · rw [if_pos hneg]
        obtain ⟨e1, e2, e3, e4⟩ := hexit 117
        exact ⟨e1, fun h => (by cases h), Or.inr rfl, e2, e3, e4⟩
      · rw [if_neg hneg]
        by_cases hne : ((s.setData g).call d (Call.snd_pcm_writei P)).1.ret ≠ P
        · rw [if_pos hne]
          obtain ⟨e1, e2, e3, e4⟩ := hexit 121
          exact ⟨e1, fun h => (by cases h), Or.inr rfl, e2, e3, e4⟩
        · rw [if_neg hne]
          push_neg at hne
          obtain ⟨i1, i2, i3, i4, i5, i6⟩ :=
            ih ((s.setData g).call d (Call.snd_pcm_writei P)).2 hPs
          simp only [Sys.call_trace, Sys.setData_trace, writes_writei, List.mem_cons,
            List.length_cons] at i1 i2 i4 i5 i6
          refine ⟨?_, ?_, i3, ?_, ?_, by omega⟩
          · intro w hw
            rcases i1 w hw with (h1 | h1) | h1
            · right; rw [h1]
            · left; exact h1
            · right; exact h1
          · intro hret
            rw [i2 hret, hne, List.replicate_succ']
            simp
          · intro rep hrep
            simpa using i4 rep hrep
          · intro hf
            apply i5
            intro w hw
            rcases hw with h1 | h1
            · rw [h1]; exact hne
            · exact hf w h1

theorem transfer_loop_spec (d : Device σ) (cfg : Config K) (pf : Platform) (areas : List Area)
    (P : Int) (hP0 : 0 < P) (hP1 : P < 2 ^ 63)
    (hdev : ∀ st, -2 ^ 31 ≤ (d st (Call.snd_pcm_writei P)).1.ret ∧
      (d st (Call.snd_pcm_writei P)).1.ret < 2 ^ 31)
    (s : Sys σ K) (hPs : s.period_size = P) (ht : s.trace = []) :
    (∀ w ∈ writes (transfer_loop d cfg pf areas s).2.trace, w.1 = P) ∧
      (∀ w ∈ (writes (transfer_loop d cfg pf areas s).2.trace).tail, w.2 = P) ∧
      (writes (transfer_loop d cfg pf areas s).2.trace).length ≤ 2 ∧
      ((transfer_loop d cfg pf areas s).1 = Outcome.parked →
        writes (transfer_loop d cfg pf areas s).2.trace = [(P, P), (P, P)] ∧
          framesTransferred (transfer_loop d cfg pf areas s).2.trace = 2 * P) ∧
      (∀ rep, Event.call Call.snd_pcm_start rep ∈ (transfer_loop d cfg pf areas s).2.trace →
        writes (beforeStart (transfer_loop d cfg pf areas s).2.trace) = [(P, P), (P, P)] ∧
          framesTransferred (beforeStart (transfer_loop d cfg pf areas s).2.trace) = 2 * P) ∧
      ((transfer_loop d cfg pf areas s).1 = Outcome.parked ∨
        (transfer_loop d cfg pf areas s).1 = Outcome.exited) := by
  have hfr : ∀ t : List Event, writes t = [(P, P), (P, P)] → framesTransferred t = 2 * P := by
    intro t h1
    simp only [framesTransferred, h1, List.map_cons, List.map_nil, List.sum_cons,
      List.sum_nil, max_eq_left (le_of_lt hP0)]
    ring
  generalize hR : transfer_loop d cfg pf areas s = R
  simp only [transfer_loop] at hR
  by_cases hh : ((s.setData (s.mem, 0)).call d Call.snd_async_add_pcm_handler).1.ret < 0
  · rw [if_pos hh] at hR
    rw [← hR]
    simp [ht]
  rw [if_neg hh] at hR
  obtain ⟨i1, i2, i3, i4, i5, i6⟩ := primeLoop_spec d cfg areas P hP0 hP1 hdev 2
    ((s.setData (s.mem, 0)).call d Call.snd_async_add_pcm_handler).2 hPs
  simp only [Sys.call_trace, Sys.setData_trace, writes_handler, ht, writes_nil,
    List.not_mem_nil, false_or, List.append_nil, List.length_nil, Nat.add_zero,
    forall_false, implies_true, forall_const] at i1 i2 i4 i5 i6
  have hnostart : ∀ rep, Event.call Call.snd_pcm_start rep ∉ (primeLoop d cfg areas 2
      ((s.setData (s.mem, 0)).call d Call.snd_async_add_pcm_handler).2).2.trace := by
    intro rep hrep
    have := i4 rep hrep
    simp at this
  rcases i3 with h3 | h3
  · have j1 : writes (primeLoop d cfg areas 2
          ((s.setData (s.mem, 0)).call d Call.snd_async_add_pcm_handler).2).2.trace
        = [(P, P), (P, P)] := by
      rw [i2 h3]; rfl
    simp only [h3] at hR
    by_cases hst : ((primeLoop d cfg areas 2
        ((s.setData (s.mem, 0)).call d Call.snd_async_add_pcm_handler).2).2.call d
          Call.snd_pcm_state).1.ret = pf.SND_PCM_STATE_PREPARED
    · rw [if_pos hst] at hR
      have hb : ∀ t1 : List Event, writes t1 = [(P, P), (P, P)] →
          ∀ w ∈ ([(P, P), (P, P)] : List (Int × Int)).tail, w.2 = P := by
        intro _ _ w hw
        simp at hw
        rw [hw]
      split_ifs at hR
      · rw [← hR]
        refine ⟨by simp [j1], by simp [j1], by simp [j1], fun h => (by cases h), ?_, Or.inr rfl⟩
        intro rep _
        simp only [Sys.print_trace, Sys.call_trace, beforeStart]
        exact ⟨by simp [j1], hfr _ (by simp [j1])⟩
      · rw [← hR]
        refine ⟨by simp [j1], by simp [j1], by simp [j1],
          fun _ => ⟨by simp [j1], hfr _ (by simp [j1])⟩, ?_, Or.inl rfl⟩
        intro rep _
        simp only [Sys.call_trace, beforeStart]
        exact ⟨by simp [j1], hfr _ (by simp [j1])⟩
    · rw [if_neg hst] at hR
      rw [← hR]
      refine ⟨by simp [j1], by simp [j1], by simp [j1],
        fun _ => ⟨by simp [j1], hfr _ (by simp [j1])⟩, ?_, Or.inl rfl⟩
      intro rep hrep
      exfalso
      simp only [Sys.call_trace, List.mem_cons, Event.call.injEq, false_and, false_or] at hrep
      rcases hrep with h5 | h5
      · cases h5.1
      · exact hnostart rep h5
  · simp only [h3] at hR
    rw [← hR]
    exact ⟨i1, i5, i6, fun h => (by cases h), fun rep hrep => absurd hrep (hnostart rep),
      Or.inr rfl⟩

/-! ## Claims about the refill loop -/

theorem transfer_callback_spec (d : Device σ) (cfg : Config K) (pf : Platform)
    (areas : List Area) (P : Int) (hP0 : 0 < P) (hP1 : P < 2 ^ 63)
    (hdev : ∀ st, -2 ^ 31 ≤ (d st (Call.snd_pcm_writei P)).1.ret ∧
      (d st (Call.snd_pcm_writei P)).1.ret < 2 ^ 31)
    (fuel : Nat) (s : Sys σ K) (hPs : s.period_size = P) (ht : s.trace = []) :
    RefillOk P (transfer_callback d cfg pf areas fuel s).2.trace ∧
      (∀ w ∈ (writes (transfer_callback d cfg pf areas fuel s).2.trace).tail, w.2 = P) ∧
      ((transfer_callback d cfg pf areas fuel s).1 ≠ Outcome.exited →
        ∀ w ∈ writes (transfer_callback d cfg pf areas fuel s).2.trace, w.2 = P) := by
  have hok0 : RefillOk P (s.call d Call.snd_pcm_avail_update).2.trace := by
    rw [Sys.call_trace, ht]
    exact RefillOk.avail _ _ _ ⟨by simp, rfl⟩
  have hf0 : ∀ w ∈ writes (s.call d Call.snd_pcm_avail_update).2.trace, w.2 = P := by
    rw [Sys.call_trace, ht]
    simp
  have hloop := refillLoop_spec d cfg areas P hP0 hP1 hdev fuel
    (s.call d Call.snd_pcm_avail_update).1 s.trace (s.call d Call.snd_pcm_avail_update).2
    hPs rfl hok0 hf0
  simp only [transfer_callback]
  split_ifs
  · refine ⟨RefillOk.printf _ _ _ hok0, ?_, fun _ => ?_⟩
    · simp [ht]
    · simp [ht]
  · exact hloop
  · exact hloop

theorem refillLoop_below_period (d : Device σ) (cfg : Config K) (areas : List Area)
    (fuel : Nat) (avail : Int) (s : Sys σ K) (h : avail < s.period_size) :
    refillLoop d cfg areas fuel avail s = (Outcome.returned, s) := by
  cases fuel with
  | zero => simp only [refillLoop]; rw [if_neg (by omega)]
  | succ n => simp only [refillLoop]; rw [if_neg (by omega)]

/-- The first half of claim C8: on `-EPIPE` the callback prints, returns, and
leaves the buffer and the phase as they were; no transfer is attempted. -/
theorem transfer_callback_underrun (d : Device σ) (cfg : Config K) (pf : Platform)
    (areas : List Area) (fuel : Nat) (s : Sys σ K) (hE : 0 < pf.EPIPE)
    (h : (d s.dev Call.snd_pcm_avail_update).1.ret = -pf.EPIPE) :
    (transfer_callback d cfg pf areas fuel s).1 = Outcome.returned ∧
      (transfer_callback d cfg pf areas fuel s).2.trace
        = Event.printf 80 ::
            Event.call Call.snd_pcm_avail_update (d s.dev Call.snd_pcm_avail_update).1 ::
            s.trace ∧
      (transfer_callback d cfg pf areas fuel s).2.phase = s.phase ∧
      (transfer_callback d cfg pf areas fuel s).2.mem = s.mem := by
  have h1 : (s.call d Call.snd_pcm_avail_update).1.ret = -pf.EPIPE := h
  simp only [transfer_callback]
  rw [if_pos (by omega), if_pos h1]
  exact ⟨rfl, rfl, rfl, rfl⟩

/-- Claim C8, evaluated at the failing input: when the availability query
returns -77 (a negative value other than `-EPIPE`) with a period of 4410
frames, `transfer_callback` returns normally; it neither prints nor exits, and
the record holds the query alone. -/
theorem transfer_callback_other_negative (cfg : Config K) (areas : List Area) (fuel : Nat)
    (mem : Mem) (phase : K) (buffer_size : Int) :
    (transfer_callback badStateDevice cfg linuxPlatform areas fuel
        ⟨(), [], mem, phase, buffer_size, 4410⟩).1 = Outcome.returned ∧
      (transfer_callback badStateDevice cfg linuxPlatform areas fuel
        ⟨(), [], mem, phase, buffer_size, 4410⟩).2.trace
        = [Event.call Call.snd_pcm_avail_update ⟨-77, 0⟩] := by
  have hl := refillLoop_below_period badStateDevice cfg areas fuel (-77)
    ((⟨(), [], mem, phase, buffer_size, 4410⟩ : Sys Unit K).call badStateDevice
      Call.snd_pcm_avail_update).2 (by rw [Sys.call_period_size]; norm_num)
  have hr : ((⟨(), [], mem, phase, buffer_size, 4410⟩ : Sys Unit K).call badStateDevice
      Call.snd_pcm_avail_update).1.ret = -77 := rfl
  simp only [transfer_callback, hr]
  rw [if_pos (by decide), if_neg (by decide), hl]
  exact ⟨rfl, rfl⟩

/-! ## Negotiation -/

@[simp]
theorem rateReplies_nil : rateReplies [] = [] := rfl

@[simp]
theorem callsAfterRate_nil : callsAfterRate [] = [] := rfl

@[simp]
theorem rateReplies_call (c : Call) (r : Reply) (t : List Event) :
    rateReplies (Event.call c r :: t)
      = if c.isRateNear then r :: rateReplies t else rateReplies t := rfl

@[simp]
theorem rateReplies_printf (l : Nat) (t : List Event) :
    rateReplies (Event.printf l :: t) = rateReplies t := rfl

@[simp]
theorem callsAfterRate_call (c : Call) (r : Reply) (t : List Event) :
    callsAfterRate (Event.call c r :: t)
      = if c.afterRate then c :: callsAfterRate t else callsAfterRate t := rfl

@[simp]
theorem callsAfterRate_printf (l : Nat) (t : List Event) :
    callsAfterRate (Event.printf l :: t) = callsAfterRate t := rfl

theorem set_hwparams_rate (d : Device σ) (cfg : Config F) (pf : Platform) (su : Setup)
    (s : Sys σ F) :
    rateReplies (set_hwparams d cfg pf su s).2.trace = rateReplies s.trace ∨
      ∃ rep, rateReplies (set_hwparams d cfg pf su s).2.trace = rep :: rateReplies s.trace ∧
        (rep.ret < 0 ∨ rep.out = cfg.rate ∨
          ((set_hwparams d cfg pf su s).1 = -pf.EINVAL ∧
            callsAfterRate (set_hwparams d cfg pf su s).2.trace = callsAfterRate s.trace)) := by
  generalize hR : set_hwparams d cfg pf su s = R
  simp only [set_hwparams] at hR
  set r1 := s.call d Call.snd_pcm_hw_params_any with hr1
  by_cases h1 : r1.1.ret < 0
  · rw [if_pos h1] at hR
    left; rw [← hR]; simp [r1, Call.isRateNear]
  rw [if_neg h1] at hR
  set r2 := r1.2.call d Call.snd_pcm_hw_params_set_access with hr2
  by_cases h2 : r2.1.ret < 0
  · rw [if_pos h2] at hR
    left; rw [← hR]; simp [r1, r2, Call.isRateNear]
  rw [if_neg h2] at hR
  set r3 := r2.2.call d Call.snd_pcm_hw_params_set_format with hr3
  by_cases h3 : r3.1.ret < 0
  · rw [if_pos h3] at hR
    left; rw [← hR]; simp [r1, r2, r3, Call.isRateNear]
  rw [if_neg h3] at hR
  set r4 := r3.2.call d (Call.snd_pcm_hw_params_set_channels su.channels) with hr4
  by_cases h4 : r4.1.ret < 0
  · rw [if_pos h4] at hR
    left; rw [← hR]; simp [r1, r2, r3, r4, Call.isRateNear]
  rw [if_neg h4] at hR
  set r5 := r4.2.call d (Call.snd_pcm_hw_params_set_rate_near cfg.rate) with hr5
  have hrr : rateReplies r5.2.trace = r5.1 :: rateReplies s.trace := by
    simp [r1, r2, r3, r4, r5, Call.isRateNear]
  have hcc : callsAfterRate r5.2.trace = callsAfterRate s.trace := by
    simp [r1, r2, r3, r4, r5, Call.afterRate]
  by_cases h5 : r5.1.ret < 0
  · rw [if_pos h5] at hR
    right; rw [← hR]; exact ⟨r5.1, by simpa using hrr, Or.inl h5⟩
  rw [if_neg h5] at hR
  by_cases h6 : r5.1.out ≠ cfg.rate
  · rw [if_pos h6] at hR
    right; rw [← hR]
    exact ⟨r5.1, by simpa using hrr, Or.inr (Or.inr ⟨rfl, by simpa using hcc⟩)⟩
  rw [if_neg h6] at hR
  push_neg at h6
  right
  refine ⟨r5.1, ?_, Or.inr (Or.inl h6)⟩
  set r6 := r5.2.call d (Call.snd_pcm_hw_params_set_buffer_time_near su.buffer_time) with hr6
  by_cases h7 : r6.1.ret < 0
  · rw [if_pos h7] at hR
    rw [← hR]; simp [r6, hrr, Call.isRateNear]
  rw [if_neg h7] at hR
  set r7 := r6.2.call d Call.snd_pcm_hw_params_get_buffer_size with hr7
  by_cases h8 : r7.1.ret < 0
  · rw [if_pos h8] at hR
    rw [← hR]; simp [r6, r7, hrr, Call.isRateNear]
  rw [if_neg h8] at hR
  set r8 := (r7.2.setBufferSize r7.1.out).call d
    (Call.snd_pcm_hw_params_set_period_time_near su.period_time) with hr8
  by_cases h9 : r8.1.ret < 0
  · rw [if_pos h9] at hR
    rw [← hR]; simp [r6, r7, r8, hrr, Call.isRateNear]
  rw [if_neg h9] at hR
  set r9 := r8.2.call d Call.snd_pcm_hw_params_get_period_size with hr9
  by_cases h10 : r9.1.ret < 0
  · rw [if_pos h10] at hR
    rw [← hR]; simp [r6, r7, r8, r9, hrr, Call.isRateNear]
  rw [if_neg h10] at hR
  set r10 := (r9.2.setPeriodSize r9.1.out).call d Call.snd_pcm_hw_params with hr10
  by_cases h11 : r10.1.ret < 0
  · rw [if_pos h11] at hR
    rw [← hR]; simp [r6, r7, r8, r9, r10, hrr, Call.isRateNear]
  rw [if_neg h11] at hR
  rw [← hR]; simp [r6, r7, r8, r9, r10, hrr, Call.isRateNear]

theorem set_swparams_rate (d : Device σ) (s : Sys σ F) :
    rateReplies (set_swparams d s).2.trace = rateReplies s.trace ∧
      callsAfterRate (set_swparams d s).2.trace = callsAfterRate s.trace := by
  generalize hR : set_swparams d s = R
  simp only [set_swparams] at hR
  split_ifs at hR <;> rw [← hR] <;> simp [Call.isRateNear, Call.afterRate]

theorem primeLoop_rate (d : Device σ) (cfg : Config K) (areas : List Area) (n : Nat)
    (s : Sys σ K) :
    rateReplies (primeLoop d cfg areas n s).2.trace = rateReplies s.trace := by
  induction n generalizing s with
  | zero => rfl
  | succ n ih =>
    rw [primeLoop]
    cases generate_sine cfg areas 0 (toInt32 s.period_size) s.phase s.mem with
    | none => simp
    | some g =>
      simp only
      split_ifs
      · simp [Call.isRateNear]
      · simp [Call.isRateNear]
      · rw [ih]; simp [Call.isRateNear]

theorem transfer_loop_rate (d : Device σ) (cfg : Config K) (pf : Platform) (areas : List Area)
    (s : Sys σ K) :
    rateReplies (transfer_loop d cfg pf areas s).2.trace = rateReplies s.trace := by
  have hp := primeLoop_rate d cfg areas 2
    ((s.setData (s.mem, 0)).call d Call.snd_async_add_pcm_handler).2
  simp only [Sys.call_trace, Sys.setData_trace, rateReplies_call, Call.isRateNear,
    Bool.false_eq_true, if_false] at hp
  generalize hR : transfer_loop d cfg pf areas s = R
  simp only [transfer_loop] at hR
  by_cases hh : ((s.setData (s.mem, 0)).call d Call.snd_async_add_pcm_handler).1.ret < 0
  · rw [if_pos hh] at hR
    rw [← hR]; simp [Call.isRateNear]
  rw [if_neg hh] at hR
  cases hpr : (primeLoop d cfg areas 2
      ((s.setData (s.mem, 0)).call d Call.snd_async_add_pcm_handler).2).1 with
  | returned =>
    simp only [hpr] at hR
    split_ifs at hR <;> rw [← hR] <;> simp [Call.isRateNear, hp]
  | exited => simp only [hpr] at hR; rw [← hR]; exact hp
  | parked => simp only [hpr] at hR; rw [← hR]; exact hp
  | running => simp only [hpr] at hR; rw [← hR]; exact hp

/-- Claim C9: for every device, when the reply to the nearest-rate request is
a success (`ret ≥ 0`) with a rate different from the requested one,
`set_hwparams` returns `-EINVAL`, a negative value, without requesting the
buffer or period time, reading their sizes or committing the parameters, and
`main` ends in `exit` without any of those calls and without any transfer. -/
theorem rate_mismatch_is_fatal (d : Device σ) (cfg : Config K) (pf : Platform) (su : Setup)
    (s : Sys σ K) (rep : Reply) (hE : 0 < pf.EINVAL) (ht : s.trace = [])
    (hok : 0 ≤ rep.ret) (hne : rep.out ≠ cfg.rate) :
    (rep ∈ rateReplies (set_hwparams d cfg pf su s).2.trace →
        (set_hwparams d cfg pf su s).1 = -pf.EINVAL ∧ (set_hwparams d cfg pf su s).1 < 0 ∧
          callsAfterRate (set_hwparams d cfg pf su s).2.trace = []) ∧
      (rep ∈ rateReplies (main d cfg pf su s).2.trace →
        (main d cfg pf su s).1 = Outcome.exited ∧
          callsAfterRate (main d cfg pf su s).2.trace = []) := by
  have key : ∀ s1 : Sys σ K, rateReplies s1.trace = [] →
      rep ∈ rateReplies (set_hwparams d cfg pf su s1).2.trace →
      (set_hwparams d cfg pf su s1).1 = -pf.EINVAL ∧
        callsAfterRate (set_hwparams d cfg pf su s1).2.trace = callsAfterRate s1.trace := by
    intro s1 h0 hin
    rcases set_hwparams_rate d cfg pf su s1 with h | ⟨r, h, hc⟩
    · rw [h, h0] at hin; simp at hin
    · rw [h, h0] at hin
      have hr : rep = r := by simpa using hin
      subst hr
      rcases hc with h1 | h1 | h1
      · omega
      · exact absurd h1 hne
      · exact h1
  constructor
  · intro hin
    obtain ⟨k1, k2⟩ := key s (by rw [ht]; rfl) hin
    refine ⟨k1, by rw [k1]; omega, ?_⟩
    rw [k2, ht]; rfl
  · intro hin
    generalize hR : main d cfg pf su s = R at hin ⊢
    simp only [main] at hR
    set r1 := s.call d Call.snd_output_stdio_attach with hr1
    by_cases h1 : r1.1.ret < 0
    · rw [if_pos h1] at hR
      rw [← hR] at hin; simp [r1, ht, Call.isRateNear] at hin
    rw [if_neg h1] at hR
    set r2 := r1.2.call d Call.snd_pcm_open with hr2
    by_cases h2 : r2.1.ret < 0
    · rw [if_pos h2] at hR
      rw [← hR] at hin; simp [r1, r2, ht, Call.isRateNear] at hin
    rw [if_neg h2] at hR
    set r3 := r2.2.call d Call.snd_pcm_status with hr3
    by_cases h3 : r3.1.ret < 0
    · rw [if_pos h3] at hR
      rw [← hR] at hin; simp [r1, r2, r3, ht, Call.isRateNear] at hin
    rw [if_neg h3] at hR
    have hr0 : rateReplies r3.2.trace = [] := by simp [r1, r2, r3, ht, Call.isRateNear]
    have hc0 : callsAfterRate r3.2.trace = [] := by simp [r1, r2, r3, ht, Call.afterRate]
    set hw := set_hwparams d cfg pf su r3.2 with hhw
    by_cases h4 : hw.1 < 0
    · rw [if_pos h4] at hR
      rw [← hR] at hin ⊢
      rw [Sys.print_trace, rateReplies_printf] at hin
      obtain ⟨_, k2⟩ := key r3.2 hr0 hin
      refine ⟨rfl, ?_⟩
      rw [Sys.print_trace, callsAfterRate_printf, k2, hc0]
    rw [if_neg h4] at hR
    exfalso
    have hin2 : rep ∈ rateReplies hw.2.trace := by
      set sw := set_swparams d hw.2 with hsw
      have hsw2 : rateReplies sw.2.trace = rateReplies hw.2.trace := (set_swparams_rate d hw.2).1
      by_cases h5 : sw.1 < 0
      · rw [if_pos h5] at hR
        rw [← hR] at hin; simpa [hsw2] using hin
      rw [if_neg h5] at hR
      set m1 := sw.2.call d
        (Call.malloc (mainBufferSize sw.2.period_size su.channels su.physical_width)) with hm1
      by_cases h6 : m1.1.out = 0
      · rw [if_pos h6] at hR
        rw [← hR] at hin; simpa [m1, hsw2, Call.isRateNear] using hin
      rw [if_neg h6] at hR
      set m2 := m1.2.call d (Call.calloc su.channels) with hm2
      by_cases h7 : m2.1.out = 0
      · rw [if_pos h7] at hR
        rw [← hR] at hin; simpa [m1, m2, hsw2, Call.isRateNear] using hin
      rw [if_neg h7] at hR
      set p1 := m2.2.call d Call.snd_pcm_prepare with hp1
      by_cases h8 : p1.1.ret < 0
      · rw [if_pos h8] at hR
        rw [← hR] at hin; simpa [m1, m2, p1, hsw2, Call.isRateNear] using hin
      rw [if_neg h8] at hR
      set p2 := p1.2.call d Call.snd_pcm_dump with hp2
      by_cases h9 : p2.1.ret < 0
      · rw [if_pos h9] at hR
        rw [← hR] at hin; simpa [m1, m2, p1, p2, hsw2, Call.isRateNear] using hin
      rw [if_neg h9] at hR
      rw [← hR, transfer_loop_rate] at hin
      simpa [m1, m2, p1, p2, hsw2, Call.isRateNear] using hin
    obtain ⟨k1, _⟩ := key r3.2 hr0 hin2
    have k1' : hw.1 = -pf.EINVAL := k1
    omega

/-- Witness of claim C9: a device that answers the rate request for 44100 Hz
with 48000 Hz. -/
theorem rate_mismatch_is_fatal_witness :
    ((0 : Int) < linuxPlatform.EINVAL ∧ (freshSys () 0).trace = [] ∧
        (0 : Int) ≤ (⟨0, 48000⟩ : Reply).ret ∧ (⟨0, 48000⟩ : Reply).out ≠ demoConfig.rate ∧
        (⟨0, 48000⟩ : Reply) ∈
          rateReplies (set_hwparams otherRateDevice demoConfig linuxPlatform fileSetup
            (freshSys () 0)).2.trace ∧
        (⟨0, 48000⟩ : Reply) ∈
          rateReplies (main otherRateDevice demoConfig linuxPlatform fileSetup
            (freshSys () 0)).2.trace) ∧
      ((⟨0, 48000⟩ ∈ rateReplies (set_hwparams otherRateDevice demoConfig linuxPlatform fileSetup
            (freshSys () 0)).2.trace →
        (set_hwparams otherRateDevice demoConfig linuxPlatform fileSetup (freshSys () 0)).1
            = -linuxPlatform.EINVAL ∧
          (set_hwparams otherRateDevice demoConfig linuxPlatform fileSetup (freshSys () 0)).1 < 0 ∧
          callsAfterRate (set_hwparams otherRateDevice demoConfig linuxPlatform fileSetup
            (freshSys () 0)).2.trace = []) ∧
      (⟨0, 48000⟩ ∈ rateReplies (main otherRateDevice demoConfig linuxPlatform fileSetup
            (freshSys () 0)).2.trace →
        (main otherRateDevice demoConfig linuxPlatform fileSetup (freshSys () 0)).1
            = Outcome.exited ∧
          callsAfterRate (main otherRateDevice demoConfig linuxPlatform fileSetup
            (freshSys () 0)).2.trace = [])) :=
  ⟨⟨by decide, rfl, by decide, by decide, by decide, by decide⟩,
    rate_mismatch_is_fatal otherRateDevice demoConfig linuxPlatform fileSetup (freshSys () 0)
      ⟨0, 48000⟩ (by decide) rfl (by decide) (by decide)⟩

end AlsaAudio
